import Mathlib

/-!
Verification development for the rosetta-validator repository.

The repository ships the tests of its storage layer and syncer
(`internal/storage` tests, `internal/syncer/syncer_test.go`) and the
process entry point (`main.go`), but the bodies of `BlockStorage`
(`storeBlock`, `removeBlock`, `UpdateBalance`, `getBalanceKey`, ...) and of
`Syncer.ProcessBlock` are not part of the source tree.  Those operations are
therefore modelled from the specification (sections 3, 4.1, 4.2, 7 of
spec.md), and cross-checked against the concrete expectations recorded in
the shipped test files.  Balances use arbitrary-precision signed integers
(`Int` here, decimal strings in the implementation); the transactional KV
engine is modelled by explicit state passing: an operation inside a write
transaction maps a store value to a new store value, committing publishes
the new value, discarding keeps the old one.
-/

deriving instance DecidableEq for Except

namespace RV

/-- Metadata values occurring in the repository's tests are strings and
integers; Go renders both with `%v`. -/
inductive MetaValue where
  | str (s : String)
  | num (n : Int)
deriving DecidableEq

def MetaValue.render : MetaValue → String
  | .str s => s
  | .num n => toString n

/-- A metadata map, in its (arbitrary) enumeration order. -/
abbrev Metadata := List (String × MetaValue)

structure SubAccountIdentifier where
  subAccount : String
  metadata : Option Metadata
deriving DecidableEq

structure AccountIdentifier where
  address : String
  subAccount : Option SubAccountIdentifier
deriving DecidableEq

structure Currency where
  symbol : String
  decimals : Nat
  metadata : Option Metadata
deriving DecidableEq

/-- Modelled from the spec: `value` is an arbitrary-precision signed integer
represented as a decimal string; we embed it as `Int`.  The currency pointer
is nilable (`UpdateBalance` rejects a nil currency with `InvalidAmount`). -/
structure Amount where
  value : Int
  currency : Option Currency
deriving DecidableEq

structure BlockIdentifier where
  hash : String
  index : Int
deriving DecidableEq

structure OperationStatus where
  status : String
  successful : Bool
deriving DecidableEq

structure Operation where
  opIndex : Int
  opType : String
  status : String
  account : Option AccountIdentifier
  amount : Option Amount
deriving DecidableEq

/-- A transaction; `hash` embeds `TransactionIdentifier.Hash`. -/
structure Transaction where
  hash : String
  operations : List Operation
deriving DecidableEq

structure Block where
  blockIdentifier : BlockIdentifier
  parentBlockIdentifier : BlockIdentifier
  timestamp : Int
  transactions : List Transaction
deriving DecidableEq

/-- Lexicographic byte order on character lists, by scalar value (the
built-in `String` order is not kernel-reducible, so the model carries its
own executable comparison). -/
def charListLE : List Char → List Char → Bool
  | [], _ => true
  | _ :: _, [] => false
  | a :: as, b :: bs => if a = b then charListLE as bs else decide (a < b)

/-- Byte order on strings. -/
def strLEb (a b : String) : Bool := charListLE a.data b.data

/-- Key order of metadata entries: byte order of the keys. -/
def keyLE (a b : String × MetaValue) : Prop := strLEb a.1 b.1 = true

/-- Strict key order of metadata entries: key order with distinct keys. -/
def keyLT (a b : String × MetaValue) : Prop := keyLE a b ∧ a.1 ≠ b.1

instance : DecidableRel keyLE := fun a b => inferInstanceAs (Decidable (strLEb a.1 b.1 = true))

instance : IsTotal (String × MetaValue) keyLE := by
  constructor
  intro a b
  show strLEb a.1 b.1 = true ∨ strLEb b.1 a.1 = true
  unfold strLEb
  have key : ∀ xs ys : List Char, charListLE xs ys = true ∨ charListLE ys xs = true := by
    intro xs
    induction xs with
    | nil => exact fun ys => Or.inl rfl
    | cons x xt ih =>
      intro ys
      cases ys with
      | nil => exact Or.inr rfl
      | cons y yt =>
        by_cases hxy : x = y
        · subst hxy
          rcases ih yt with h | h
          · exact Or.inl (by simpa [charListLE] using h)
          · exact Or.inr (by simpa [charListLE] using h)
        · rcases lt_or_gt_of_ne hxy with h | h
          · exact Or.inl (by simp [charListLE, hxy, h])
          · exact Or.inr (by simp [charListLE, Ne.symm hxy, h])
  exact key _ _

instance : IsTrans (String × MetaValue) keyLE := by
  constructor
  intro a b c hab hbc
  unfold keyLE strLEb at hab hbc ⊢
  have key : ∀ xs ys zs : List Char, charListLE xs ys = true → charListLE ys zs = true →
      charListLE xs zs = true := by
    intro xs
    induction xs with
    | nil => exact fun ys zs _ _ => rfl
    | cons x xt ih =>
      intro ys zs h1 h2
      cases ys with
      | nil => simp [charListLE] at h1
      | cons y yt =>
        cases zs with
        | nil => simp [charListLE] at h2
        | cons z zt =>
          by_cases hxy : x = y
          · subst hxy
            simp only [charListLE, if_pos rfl] at h1
            by_cases hyz : x = z
            · subst hyz
              simp only [charListLE, if_pos rfl] at h2 ⊢
              exact ih yt zt h1 h2
            · simp only [charListLE, if_neg hyz] at h2 ⊢
              exact h2
          · simp only [charListLE, if_neg hxy] at h1
            have hxyl : x < y := of_decide_eq_true h1
            by_cases hyz : y = z
            · subst hyz
              simp only [charListLE, if_neg hxy]
              exact h1
            · simp only [charListLE, if_neg hyz] at h2
              have hyzl : y < z := of_decide_eq_true h2
              have hxz : x < z := lt_trans hxyl hyzl
              simp [charListLE, ne_of_lt hxz, hxz]
  exact key _ _ _ hab hbc

instance : IsAntisymm (String × MetaValue) keyLT := by
  constructor
  intro a b hab hba
  obtain ⟨hle1, hne⟩ := hab
  obtain ⟨hle2, _⟩ := hba
  exfalso
  apply hne
  unfold keyLE strLEb at hle1 hle2
  have key : ∀ xs ys : List Char, charListLE xs ys = true → charListLE ys xs = true →
      xs = ys := by
    intro xs
    induction xs with
    | nil =>
      intro ys h1 h2
      cases ys with
      | nil => rfl
      | cons y yt => simp [charListLE] at h2
    | cons x xt ih =>
      intro ys h1 h2
      cases ys with
      | nil => simp [charListLE] at h1
      | cons y yt =>
        by_cases hxy : x = y
        · subst hxy
          simp only [charListLE, if_pos rfl] at h1 h2
          rw [ih yt h1 h2]
        · have h1' : x < y := of_decide_eq_true (by simpa [charListLE, hxy] using h1)
          have h2' : y < x := of_decide_eq_true (by simpa [charListLE, Ne.symm hxy] using h2)
          exact absurd h2' (lt_asymm h1')
  have hdata : a.1.data = b.1.data := key _ _ hle1 hle2
  cases ha : a.1
  cases hb : b.1
  rw [ha, hb] at hdata
  exact congrArg String.mk (by simpa using hdata)

/-- Modelled from the spec: deterministic serialization of a metadata map,
sorted by key byte order, rendered the way Go's `%v` prints a map
(`map[k1:v1 k2:v2]`), matching the expected keys in `TestGetBalanceKey`. -/
def serializeMetadata (m : Metadata) : String :=
  "map[" ++ String.intercalate " "
    ((m.insertionSort keyLE).map (fun kv => kv.1 ++ ":" ++ kv.2.render)) ++ "]"

/-- Modelled from the spec: canonical form of an account identifier,
`address` optionally followed by `:subName` optionally followed by the
sorted-key metadata serialization. -/
def accountCanonical (a : AccountIdentifier) : String :=
  match a.subAccount with
  | none => a.address
  | some sa =>
    match sa.metadata with
    | none => a.address ++ ":" ++ sa.subAccount
    | some m => a.address ++ ":" ++ sa.subAccount ++ ":" ++ serializeMetadata m

/-- Modelled from the spec: the balance key of an account.  The
implementation additionally hashes this canonical string to bounded length
(`hashBytes`); hashing maps equal strings to equal keys, so the canonical
string itself stands for the key here. -/
def getBalanceKey (a : AccountIdentifier) : String :=
  "balance:" ++ accountCanonical a

/-- Modelled from the spec: canonical form `symbol:decimals` optionally
followed by the sorted-key metadata serialization (`TestGetCurrencyKey`);
the implementation hashes this string (`hashString`), which preserves
equality. -/
def GetCurrencyKey (c : Currency) : String :=
  match c.metadata with
  | none => c.symbol ++ ":" ++ toString c.decimals
  | some m => c.symbol ++ ":" ++ toString c.decimals ++ ":" ++ serializeMetadata m

/-- Association-list lookup over string keys. -/
def alookup {β : Type} : List (String × β) → String → Option β
  | [], _ => none
  | (k', v) :: t, k => if k' = k then some v else alookup t k

/-- Association-list insert-or-replace over string keys (replacement keeps
the entry's position). -/
def upsert {β : Type} : List (String × β) → String → β → List (String × β)
  | [], k, v => [(k, v)]
  | (k', v') :: t, k, v => if k' = k then (k, v) :: t else (k', v') :: upsert t k v

/-- One balance record per account: the amount for every currency ever
touched, as of the recorded block. -/
structure BalanceRecord where
  amounts : List (String × Amount)
  block : BlockIdentifier
deriving DecidableEq

/-- Modelled from the spec: one historical balance-change entry, appended on
every modifying operation and keyed under the block it belongs to
(`bchange:<blockHash>:<acctCanonical>:<currencyKey> -> delta`); it records
the applied delta and the balance record's pre-change block reference
(`none` when the record was created by this change), so rollback can
reverse it. -/
structure ChangeEntry where
  blockHash : String
  acctKey : String
  curKey : String
  account : AccountIdentifier
  currency : Currency
  delta : Int
  prevBlock : Option BlockIdentifier
deriving DecidableEq

/-- Modelled from the spec: the abstract contents of the transactional KV
store under the key schema of section 4.1 — head pointer, blocks by hash,
block-hash and transaction-hash uniqueness sentinels, balance records by
canonical account key, and the historical balance-change log (newest entry
first). -/
structure Store where
  head : Option BlockIdentifier
  blocks : List Block
  blockHashes : List String
  txHashes : List String
  balances : List (String × BalanceRecord)
  changes : List ChangeEntry
deriving DecidableEq

def emptyStore : Store :=
  { head := none, blocks := [], blockHashes := [], txHashes := [], balances := [], changes := [] }

instance : Inhabited Store := ⟨emptyStore⟩

inductive StorageError where
  | headBlockNotFound
  | blockNotFound (bid : BlockIdentifier)
  | accountNotFound (a : AccountIdentifier)
  | duplicateBlockHash (h : String)
  | duplicateTransactionHash (h : String)
  | negativeBalance
  | invalidAmount
deriving DecidableEq

/-- Modelled from the spec: `getHead(Txn) -> BlockIdentifier | NotFound`. -/
def getHead (s : Store) : Except StorageError BlockIdentifier :=
  match s.head with
  | none => .error .headBlockNotFound
  | some hd => .ok hd

/-- Modelled from the spec: `setHead(Txn, BlockIdentifier)`
(`StoreHeadBlockIdentifier`): the single head pointer is overwritten. -/
def setHead (s : Store) (bid : BlockIdentifier) : Store :=
  { s with head := some bid }

def lookupBlock : List Block → String → Option Block
  | [], _ => none
  | b :: t, hsh => if b.blockIdentifier.hash = hsh then some b else lookupBlock t hsh

/-- Modelled from the spec: `getBlock` looks a block up by hash; the index
of the identifier is not used. -/
def getBlock (s : Store) (bid : BlockIdentifier) : Except StorageError Block :=
  match lookupBlock s.blocks bid.hash with
  | none => .error (.blockNotFound bid)
  | some b => .ok b

/-- Modelled from the spec: `getBalance(Txn, account) -> (amounts, block) |
AccountNotFound`. -/
def getBalance (s : Store) (a : AccountIdentifier) :
    Except StorageError (List (String × Amount) × BlockIdentifier) :=
  match alookup s.balances (getBalanceKey a) with
  | none => .error (.accountNotFound a)
  | some r => .ok (r.amounts, r.block)

def amountValue (r : BalanceRecord) (ck : String) : Int :=
  match alookup r.amounts ck with
  | none => 0
  | some a => a.value

/-- The stored balance value of canonical account key `k` in currency key
`ck`; a missing record or missing currency reads as zero. -/
def valueOf (bals : List (String × BalanceRecord)) (k ck : String) : Int :=
  match alookup bals k with
  | none => 0
  | some r => amountValue r ck

/-- The balance record written when a delta `d` of currency `c` is applied
to account `a` over the balances `bals`: the currency's amount becomes the
old value (zero when absent) plus `d`, the other currencies' amounts are
kept, and the record cites the block being applied. -/
def updatedRecord (bals : List (String × BalanceRecord)) (a : AccountIdentifier)
    (c : Currency) (d : Int) (blk : BlockIdentifier) : BalanceRecord :=
  match alookup bals (getBalanceKey a) with
  | some r =>
    { amounts := upsert r.amounts (GetCurrencyKey c)
        { value := valueOf bals (getBalanceKey a) (GetCurrencyKey c) + d, currency := some c }
      , block := blk }
  | none =>
    { amounts := [(GetCurrencyKey c,
        { value := valueOf bals (getBalanceKey a) (GetCurrencyKey c) + d, currency := some c })]
      , block := blk }

/-- The historical change entry appended when a delta `d` of currency `c`
is applied to account `a`: it records the delta and the record's pre-change
block reference (`none` when the record did not exist yet). -/
def mkChange (bals : List (String × BalanceRecord)) (a : AccountIdentifier)
    (c : Currency) (d : Int) (blk : BlockIdentifier) : ChangeEntry :=
  { blockHash := blk.hash, acctKey := getBalanceKey a, curKey := GetCurrencyKey c
    , account := a, currency := c, delta := d
    , prevBlock := (alookup bals (getBalanceKey a)).map (·.block) }

/-- The store after an (already validated) delta is applied: the new record
is written and the change entry is prepended to the log. -/
def applyDeltaCore (s : Store) (a : AccountIdentifier) (c : Currency) (d : Int)
    (blk : BlockIdentifier) : Store :=
  { s with
      balances := upsert s.balances (getBalanceKey a) (updatedRecord s.balances a c d blk),
      changes := mkChange s.balances a c d blk :: s.changes }

/-- Modelled from the spec: `applyDelta` / `UpdateBalance`.  Rejects a nil
currency with `InvalidAmount`; reads the current balance record (or zero);
fails with `NegativeBalance` when the new value would be negative;
otherwise writes the new record (amount keyed by currency key, record
citing the given block) and appends a historical change entry recording the
delta and the pre-change block reference. -/
def updateBalance (s : Store) (a : AccountIdentifier) (amt : Amount)
    (blk : BlockIdentifier) : Except StorageError Store :=
  match amt.currency with
  | none => .error .invalidAmount
  | some c =>
    if valueOf s.balances (getBalanceKey a) (GetCurrencyKey c) + amt.value < 0 then
      .error .negativeBalance
    else
      .ok (applyDeltaCore s a c amt.value blk)

/-- Whether `st` declares operation status `stat` as successful; a status
absent from the network's operation-status table is not successful. -/
def successfulStatus (st : List OperationStatus) (stat : String) : Bool :=
  match st.find? (fun os => os.status == stat) with
  | some os => os.successful
  | none => false

/-- The balance-affecting content of a block: for every operation whose
status maps to successful and which carries a non-nil account and amount,
the (account, amount) pair, in block order. -/
def blockChanges (st : List OperationStatus) (b : Block) : List (AccountIdentifier × Amount) :=
  (b.transactions.map (fun t => t.operations.filterMap (fun op =>
    match op.account, op.amount with
    | some a, some amt => if successfulStatus st op.status then some (a, amt) else none
    | _, _ => none))).flatten

/-- Sequentially applies the balance deltas of a block via `updateBalance`;
the first failure aborts. -/
def applyChanges (s : Store) (blk : BlockIdentifier) :
    List (AccountIdentifier × Amount) → Except StorageError Store
  | [] => .ok s
  | ch :: rest =>
    match updateBalance s ch.1 ch.2 blk with
    | .error e => .error e
    | .ok s1 => applyChanges s1 blk rest

/-- Registers the transaction-hash uniqueness sentinels of a block, one
transaction at a time; fails with `DuplicateTransactionHash` on a hash that
is already present. -/
def registerTxs : List String → List Transaction → Except StorageError (List String)
  | acc, [] => .ok acc
  | acc, t :: rest =>
    if t.hash ∈ acc then .error (.duplicateTransactionHash t.hash)
    else registerTxs (t.hash :: acc) rest

/-- Modelled from the spec: `storeBlock(Txn, Block)`.  Fails with
`DuplicateBlockHash` if the block's hash is already present, with
`DuplicateTransactionHash` if any transaction hash is already present;
on success registers the uniqueness sentinels, invokes `applyDelta` for
every successful operation carrying a non-nil amount, and finally writes
the block under its hash. -/
def storeBlock (st : List OperationStatus) (s : Store) (b : Block) : Except StorageError Store :=
  if b.blockIdentifier.hash ∈ s.blockHashes then
    .error (.duplicateBlockHash b.blockIdentifier.hash)
  else
    match registerTxs s.txHashes b.transactions with
    | .error e => .error e
    | .ok txh =>
      match applyChanges
          { s with blockHashes := b.blockIdentifier.hash :: s.blockHashes, txHashes := txh }
          b.blockIdentifier (blockChanges st b) with
      | .error e => .error e
      | .ok s1 => .ok { s1 with blocks := b :: s1.blocks }

/-- The change-log entries belonging to block hash `hsh`, in log order
(newest first). -/
def entriesOf : List ChangeEntry → String → List ChangeEntry
  | [], _ => []
  | e :: t, hsh => if e.blockHash = hsh then e :: entriesOf t hsh else entriesOf t hsh

/-- The change log with every entry of block hash `hsh` deleted. -/
def dropEntries : List ChangeEntry → String → List ChangeEntry
  | [], _ => []
  | e :: t, hsh => if e.blockHash = hsh then dropEntries t hsh else e :: dropEntries t hsh

def eraseBlockHash : List Block → String → List Block
  | [], _ => []
  | b :: t, hsh =>
    if b.blockIdentifier.hash = hsh then eraseBlockHash t hsh else b :: eraseBlockHash t hsh

def eraseString : List String → String → List String
  | [], _ => []
  | x :: t, hsh => if x = hsh then eraseString t hsh else x :: eraseString t hsh

def removeStrings : List String → List String → List String
  | [], _ => []
  | x :: t, rem => if x ∈ rem then removeStrings t rem else x :: removeStrings t rem

/-- The balance record written when a change entry is inverted: the
entry's delta is subtracted from the current value and the pre-change block
reference is restored (the removed block's parent when the change created
the record). -/
def restoreRec (parent : BlockIdentifier) (bals : List (String × BalanceRecord))
    (e : ChangeEntry) : BalanceRecord :=
  match alookup bals e.acctKey with
  | some r =>
    { amounts := upsert r.amounts e.curKey
        { value := valueOf bals e.acctKey e.curKey - e.delta, currency := some e.currency }
      , block := e.prevBlock.getD parent }
  | none =>
    { amounts := [(e.curKey,
        { value := valueOf bals e.acctKey e.curKey - e.delta, currency := some e.currency })]
      , block := e.prevBlock.getD parent }

/-- Inverts one previously-applied delta of the change log. -/
def restoreEntry (parent : BlockIdentifier) (bals : List (String × BalanceRecord))
    (e : ChangeEntry) : List (String × BalanceRecord) :=
  upsert bals e.acctKey (restoreRec parent bals e)

def restoreAll (parent : BlockIdentifier) (bals : List (String × BalanceRecord)) :
    List ChangeEntry → List (String × BalanceRecord)
  | [] => bals
  | e :: t => restoreAll parent (restoreEntry parent bals e) t

/-- Modelled from the spec: `removeBlock(Txn, BlockIdentifier)`.  Looks the
block up; inverts every previously-applied delta of that block, read from
the historical change log; deletes the block record, its uniqueness
sentinels (block hash and transaction hashes) and its change entries. -/
def removeBlock (s : Store) (bid : BlockIdentifier) : Except StorageError Store :=
  match lookupBlock s.blocks bid.hash with
  | none => .error (.blockNotFound bid)
  | some blk =>
    .ok { head := s.head
        , blocks := eraseBlockHash s.blocks bid.hash
        , blockHashes := eraseString s.blockHashes bid.hash
        , txHashes := removeStrings s.txHashes (blk.transactions.map (·.hash))
        , balances := restoreAll blk.parentBlockIdentifier s.balances (entriesOf s.changes bid.hash)
        , changes := dropEntries s.changes bid.hash }

/-- Modelled from the spec: the TransactionalKV engine (an external
collaborator, not under src) provides snapshot isolation — a read
transaction sees the committed store as of its opening. -/
def beginReadTxn (db : Store) : Store := db

/-- Modelled from the spec: discarding a write transaction throws its
pending store away; the committed store is unchanged. -/
def discardTxn (db _pending : Store) : Store := db

/-- Modelled from the spec: committing a write transaction atomically
publishes its pending store. -/
def commitTxn (_db pending : Store) : Store := pending

/-- An (account, currency) pair emitted to the reconciler
(`reconciler.AccountAndCurrency`). -/
structure AccountAndCurrency where
  account : AccountIdentifier
  currency : Currency
deriving DecidableEq

def addUnique (l : List AccountAndCurrency) (x : AccountAndCurrency) : List AccountAndCurrency :=
  if x ∈ l then l else l ++ [x]

/-- Deduplicates a pair list, keeping the first occurrence of each pair. -/
def uniquePairs (l : List AccountAndCurrency) : List AccountAndCurrency :=
  l.foldl addUnique []

/-- The (account, currency) pairs of a balance-change list (dropping the
currency-less ones, which never survive `updateBalance`). -/
def changePairs (chs : List (AccountIdentifier × Amount)) : List AccountAndCurrency :=
  chs.filterMap (fun ch => (ch.2.currency).map (fun c => { account := ch.1, currency := c }))

/-- The deduplicated (account, currency) pairs touched by the successful
operations of a block — the forward `modifiedAccounts` emission. -/
def forwardChanged (st : List OperationStatus) (b : Block) : List AccountAndCurrency :=
  uniquePairs (changePairs (blockChanges st b))

inductive SyncError where
  | storage (e : StorageError)
  | outOfOrderBlock (got expected : Int)
deriving DecidableEq

/-- Rendered error messages; `outOfOrderBlock` renders exactly as the Go
`fmt.Errorf("Got block %d instead of %d", ...)` in the syncer does.  The
storage-error strings are not pinned down by the spec except for
`invalid amount` (asserted verbatim in `TestBalance`). -/
def syncErrorMessage : SyncError → String
  | .outOfOrderBlock got expected =>
      "Got block " ++ toString got ++ " instead of " ++ toString expected
  | .storage .invalidAmount => "invalid amount"
  | .storage _ => "storage error"

/-- The result of one `ProcessBlock` call: the emitted changed accounts,
the index to sync next, the error if any, and the committed store (the
input store unchanged whenever the call fails, since the write transaction
is discarded rather than committed). -/
structure ProcessOut where
  changed : List AccountAndCurrency
  newIndex : Int
  err : Option SyncError
  store : Store
deriving DecidableEq

/-- Modelled from the spec: the forward case of `ProcessBlock` — open a
write transaction, `storeBlock`, `setHead`, commit; emit every (account,
currency) pair touched by successful operations and advance the index. -/
def forwardCase (st : List OperationStatus) (s : Store) (n : Int) (b : Block) : ProcessOut :=
  match storeBlock st s b with
  | .error e => { changed := [], newIndex := n, err := some (.storage e), store := s }
  | .ok s1 =>
    { changed := forwardChanged st b, newIndex := n + 1, err := none
      , store := setHead s1 b.blockIdentifier }

/-- Modelled from the spec: the reorg case of `ProcessBlock` — remove the
head block inside a write transaction (the change log rewinds the balances
it touched), set the head to the removed block's parent, emit every
(account, currency) pair read from the removed block's change log before
deletion, and decrement the index; the candidate block is not stored. -/
def rollbackCase (s : Store) (n : Int) (hd : BlockIdentifier) : ProcessOut :=
  match lookupBlock s.blocks hd.hash with
  | none => { changed := [], newIndex := n, err := some (.storage (.blockNotFound hd)), store := s }
  | some hb =>
    match removeBlock s hd with
    | .error e => { changed := [], newIndex := n, err := some (.storage e), store := s }
    | .ok s1 =>
      { changed := uniquePairs ((entriesOf s.changes hd.hash).map
            (fun e => { account := e.account, currency := e.currency }))
        , newIndex := n - 1, err := none
        , store := setHead s1 hb.parentBlockIdentifier }

/-- Modelled from the spec: `ProcessBlock(currentIndex, block)`.  Shape
check first (`OutOfOrderBlock` when the candidate's index is not the
expected one); the genesis case skips the parent check; otherwise a parent
mismatch against the head is a reorg signal, and a match advances the
chain. -/
def processBlock (st : List OperationStatus) (s : Store) (n : Int) (b : Block) : ProcessOut :=
  if b.blockIdentifier.index = n then
    if n = 0 then forwardCase st s n b
    else
      match s.head with
      | none => { changed := [], newIndex := n, err := some (.storage .headBlockNotFound), store := s }
      | some hd =>
        if b.parentBlockIdentifier = hd then forwardCase st s n b
        else rollbackCase s n hd
  else
    { changed := [], newIndex := n
      , err := some (.outOfOrderBlock b.blockIdentifier.index n), store := s }

/-- The store's balances after applying (or inverting) deltas agree with
the original balances in every stored value — a missing record or currency
reading as zero — and every account that had a record keeps a record citing
the same block.  The left side may hold explicit zero-valued entries where
the right side holds none. -/
def BalEquiv (b1 b2 : List (String × BalanceRecord)) : Prop :=
  (∀ k ck, valueOf b1 k ck = valueOf b2 k ck) ∧
  (∀ k r, alookup b2 k = some r → ∃ r', alookup b1 k = some r' ∧ r'.block = r.block)

/-- The (account, currency) pair recorded in a change entry. -/
def entryPair (e : ChangeEntry) : AccountAndCurrency :=
  { account := e.account, currency := e.currency }

/-- The block with only its successful operations retained (the block the
spec says is equivalent for balance purposes). -/
def filterSuccessfulOps (st : List OperationStatus) (b : Block) : Block :=
  { b with transactions := b.transactions.map (fun t =>
      { t with operations := t.operations.filter (fun op => successfulStatus st op.status) }) }

/-- The balances and change log of a storage result — the observables the
operation-status filter can influence. -/
def balancesAndChanges (r : Except StorageError Store) :
    Except StorageError (List (String × BalanceRecord) × List ChangeEntry) :=
  r.map (fun s => (s.balances, s.changes))

/-- The store states (paired with the index the syncer would request next)
reachable by any sequence of `ProcessBlock` calls from an empty store,
starting at index 0 as the syncer does. -/
inductive Reachable (st : List OperationStatus) : Store → Int → Prop where
  | init : Reachable st emptyStore 0
  | step (s : Store) (n : Int) (b : Block) : Reachable st s n →
      Reachable st (processBlock st s n b).store (processBlock st s n b).newIndex

/-- Whether a `ProcessBlock` call would roll back a head block of index 0
(the genesis block). -/
def genesisRollbackStep (s : Store) (n : Int) (b : Block) : Bool :=
  decide (b.blockIdentifier.index = n) && !(decide (n = 0)) &&
    (match s.head with
     | some hd => !(decide (b.parentBlockIdentifier = hd)) && decide (hd.index = 0)
     | none => false)

/-- Reachability restricted to runs that never roll back the genesis
block. -/
inductive SafeReachable (st : List OperationStatus) : Store → Int → Prop where
  | init : SafeReachable st emptyStore 0
  | step (s : Store) (n : Int) (b : Block) : SafeReachable st s n →
      genesisRollbackStep s n b = false →
      SafeReachable st (processBlock st s n b).store (processBlock st s n b).newIndex

/-- The stored blocks, newest first, form a parent-linked chain with
consecutive indexes, ending at an index-0 block. -/
def chainLinked : List Block → Prop
  | [] => True
  | [b] => b.blockIdentifier.index = 0
  | b :: p :: t =>
    b.parentBlockIdentifier = p.blockIdentifier ∧
    b.blockIdentifier.index = p.blockIdentifier.index + 1 ∧ chainLinked (p :: t)

/-- The inductive store invariant maintained by `ProcessBlock` (away from
genesis rollback): the head pointer names the newest stored block and the
next expected index is one past it, the stored blocks form a parent-linked
chain with distinct hashes, and every stored block's hash is covered by the
uniqueness sentinels. -/
def StoreInv (s : Store) (n : Int) : Prop :=
  (s.blocks = [] → s.head = none ∧ n = 0) ∧
  (∀ b t, s.blocks = b :: t →
    s.head = some b.blockIdentifier ∧ n = b.blockIdentifier.index + 1) ∧
  chainLinked s.blocks ∧
  (s.blocks.map (fun b => b.blockIdentifier.hash)).Nodup ∧
  (∀ b ∈ s.blocks, b.blockIdentifier.hash ∈ s.blockHashes)

/-- The currency, accounts, operations, transactions, statuses and blocks
of the repository's syncer tests, used as concrete witnesses. -/
def blahCurrency : Currency := { symbol := "Blah", decimals := 2, metadata := none }

def acctOne : AccountIdentifier := { address := "acct1", subAccount := none }

def acctTwo : AccountIdentifier := { address := "acct2", subAccount := none }

def successOp : Operation :=
  { opIndex := 0, opType := "Transfer", status := "Success", account := some acctOne,
    amount := some { value := 100, currency := some blahCurrency } }

def failureOp : Operation :=
  { opIndex := 1, opType := "Transfer", status := "Failure", account := some acctOne,
    amount := some { value := 100, currency := some blahCurrency } }

def txOne : Transaction := { hash := "tx1", operations := [successOp, failureOp] }

def sendOp : Operation :=
  { opIndex := 0, opType := "Transfer", status := "Success", account := some acctTwo,
    amount := some { value := -100, currency := some blahCurrency } }

def txTwo : Transaction := { hash := "tx2", operations := [sendOp] }

def testStatuses : List OperationStatus :=
  [ { status := "Success", successful := true },
    { status := "Failure", successful := false } ]

def mkBlockId (h : String) (i : Int) : BlockIdentifier := { hash := h, index := i }

def mkBlock (h : String) (i : Int) (ph : String) (pj : Int) (txs : List Transaction) : Block :=
  { blockIdentifier := mkBlockId h i, parentBlockIdentifier := mkBlockId ph pj,
    timestamp := 1, transactions := txs }

def genBlock : Block := mkBlock "0" 0 "0" 0 []

def blockOne : Block := mkBlock "1" 1 "0" 0 [txOne]

def orphanTrigger : Block := mkBlock "2" 2 "1a" 1 []

def storeAfterGen : Store := (processBlock testStatuses emptyStore 0 genBlock).store

def storeAfterOne : Store :=
  (processBlock testStatuses storeAfterGen 1 blockOne).store

def sbAfterOne : Store :=
  ((storeBlock testStatuses storeAfterGen blockOne).toOption).getD emptyStore

def rollbackOut : ProcessOut := processBlock testStatuses storeAfterOne 2 orphanTrigger

def negBlock : Block := mkBlock "3" 1 "0" 0 [txTwo]

def oooBlock : Block := mkBlock "5" 5 "4" 4 []

def badGenChild : Block := mkBlock "2" 1 "1x" 0 []

def ghostStore : Store := (processBlock testStatuses storeAfterGen 1 badGenChild).store

def plusBlock : Block := mkBlock "only" 0 "root" 0
  [{ hash := "txp", operations := [successOp] }]

def plusStored : Store :=
  ((storeBlock testStatuses emptyStore plusBlock).toOption).getD emptyStore

def plusRemoved : Store :=
  ((removeBlock plusStored plusBlock.blockIdentifier).toOption).getD emptyStore

def metaAccountA : AccountIdentifier :=
  ⟨"hello", some ⟨"stake", some [("cool", .num 1), ("awesome", .str "neat")]⟩⟩

def metaAccountB : AccountIdentifier :=
  ⟨"hello", some ⟨"stake", some [("awesome", .str "neat"), ("cool", .num 1)]⟩⟩

def dupOp : Operation := { opIndex := 0, opType := "", status := "", account := none, amount := none }

def dupBlock : Block := mkBlock "blah" 0 "" 0 [{ hash := "blahTx", operations := [dupOp] }]

def dupBlock2 : Block := mkBlock "blah 2" 1 "" 0 [{ hash := "blahTx", operations := [dupOp] }]

def dupStore : Store := ((storeBlock testStatuses emptyStore dupBlock).toOption).getD emptyStore

def c7Pending : Store :=
  ((updateBalance emptyStore acctOne { value := 100, currency := some blahCurrency }
    (mkBlockId "b" 1)).toOption).getD emptyStore

def nrBlockOne : Block := mkBlock "1" 1 "0" 0 []

def nrBlockTwo : Block := mkBlock "2" 2 "1" 1 [txOne]

def storeNR1 : Store := (processBlock testStatuses storeAfterGen 1 nrBlockOne).store

def outNR2 : ProcessOut := processBlock testStatuses storeNR1 2 nrBlockTwo

section AssocLemmas

variable {β : Type}

theorem alookup_upsert_self (l : List (String × β)) (k : String) (v : β) :
    alookup (upsert l k v) k = some v := by
  induction l with
  | nil => simp [upsert, alookup]
  | cons hd t ih =>
    obtain ⟨k', v'⟩ := hd
    by_cases h : k' = k
    · simp [upsert, h, alookup]
    · simp [upsert, h, alookup, ih]

theorem alookup_upsert_ne (l : List (String × β)) (k k' : String) (v : β) (h : k' ≠ k) :
    alookup (upsert l k v) k' = alookup l k' := by
  have hne : k ≠ k' := Ne.symm h
  induction l with
  | nil => simp [upsert, alookup, hne]
  | cons hd t ih =>
    obtain ⟨k0, v0⟩ := hd
    by_cases h0 : k0 = k
    · subst h0
      simp [upsert, alookup, hne]
    · simp only [upsert, if_neg h0, alookup]
      by_cases h1 : k0 = k'
      · simp [h1]
      · simp [h1, ih]

end AssocLemmas

theorem valueOf_upsert_self (bals : List (String × BalanceRecord)) (k : String)
    (r : BalanceRecord) (ck : String) :
    valueOf (upsert bals k r) k ck = amountValue r ck := by
  simp [valueOf, alookup_upsert_self]

theorem valueOf_upsert_ne (bals : List (String × BalanceRecord)) (k k' : String)
    (r : BalanceRecord) (ck : String) (h : k' ≠ k) :
    valueOf (upsert bals k r) k' ck = valueOf bals k' ck := by
  simp [valueOf, alookup_upsert_ne _ _ _ _ h]

theorem amountValue_upsert_self (amts : List (String × Amount)) (ck : String) (a : Amount) :
    amountValue { amounts := upsert amts ck a, block := b } ck = a.value := by
  simp [amountValue, alookup_upsert_self]

theorem amountValue_upsert_ne (amts : List (String × Amount)) (ck ck' : String) (a : Amount)
    (h : ck' ≠ ck) :
    amountValue { amounts := upsert amts ck a, block := b } ck' =
      amountValue { amounts := amts, block := b' } ck' := by
  simp [amountValue, alookup_upsert_ne _ _ _ _ h]

theorem updatedRecord_block (bals : List (String × BalanceRecord)) (a : AccountIdentifier)
    (c : Currency) (d : Int) (blk : BlockIdentifier) :
    (updatedRecord bals a c d blk).block = blk := by
  unfold updatedRecord
  cases h : alookup bals (getBalanceKey a) <;> simp

theorem amountValue_updatedRecord_self (bals : List (String × BalanceRecord))
    (a : AccountIdentifier) (c : Currency) (d : Int) (blk : BlockIdentifier) :
    amountValue (updatedRecord bals a c d blk) (GetCurrencyKey c) =
      valueOf bals (getBalanceKey a) (GetCurrencyKey c) + d := by
  unfold updatedRecord
  cases h : alookup bals (getBalanceKey a) with
  | none => simp [amountValue, alookup]
  | some r => simp [amountValue, alookup_upsert_self]

theorem amountValue_updatedRecord_ne (bals : List (String × BalanceRecord))
    (a : AccountIdentifier) (c : Currency) (d : Int) (blk : BlockIdentifier) (ck' : String)
    (h : ck' ≠ GetCurrencyKey c) :
    amountValue (updatedRecord bals a c d blk) ck' =
      valueOf bals (getBalanceKey a) ck' := by
  have h' : GetCurrencyKey c ≠ ck' := Ne.symm h
  unfold updatedRecord
  cases halo : alookup bals (getBalanceKey a) with
  | none => simp [amountValue, alookup, h', valueOf, halo]
  | some r => simp [amountValue, alookup_upsert_ne _ _ _ _ h, valueOf, halo]

theorem restoreRec_block (parent : BlockIdentifier) (bals : List (String × BalanceRecord))
    (e : ChangeEntry) :
    (restoreRec parent bals e).block = e.prevBlock.getD parent := by
  unfold restoreRec
  cases h : alookup bals e.acctKey <;> simp

theorem amountValue_restoreRec_self (parent : BlockIdentifier)
    (bals : List (String × BalanceRecord)) (e : ChangeEntry) :
    amountValue (restoreRec parent bals e) e.curKey =
      valueOf bals e.acctKey e.curKey - e.delta := by
  unfold restoreRec
  cases h : alookup bals e.acctKey with
  | none => simp [amountValue, alookup]
  | some r => simp [amountValue, alookup_upsert_self]

theorem amountValue_restoreRec_ne (parent : BlockIdentifier)
    (bals : List (String × BalanceRecord)) (e : ChangeEntry) (ck' : String)
    (h : ck' ≠ e.curKey) :
    amountValue (restoreRec parent bals e) ck' = valueOf bals e.acctKey ck' := by
  have h' : e.curKey ≠ ck' := Ne.symm h
  unfold restoreRec
  cases halo : alookup bals e.acctKey with
  | none => simp [amountValue, alookup, h', valueOf, halo]
  | some r => simp [amountValue, alookup_upsert_ne _ _ _ _ h, valueOf, halo]

theorem BalEquiv.refl (b : List (String × BalanceRecord)) : BalEquiv b b :=
  ⟨fun _ _ => rfl, fun _ r h => ⟨r, h, rfl⟩⟩

theorem BalEquiv.trans {b1 b2 b3 : List (String × BalanceRecord)}
    (h12 : BalEquiv b1 b2) (h23 : BalEquiv b2 b3) : BalEquiv b1 b3 := by
  refine ⟨fun k ck => (h12.1 k ck).trans (h23.1 k ck), fun k r h => ?_⟩
  obtain ⟨r2, hr2, hb2⟩ := h23.2 k r h
  obtain ⟨r1, hr1, hb1⟩ := h12.2 k r2 hr2
  exact ⟨r1, hr1, hb1.trans hb2⟩

theorem valueOf_restoreEntry (parent : BlockIdentifier) (bals : List (String × BalanceRecord))
    (e : ChangeEntry) (k ck : String) :
    valueOf (restoreEntry parent bals e) k ck =
      valueOf bals k ck - (if k = e.acctKey ∧ ck = e.curKey then e.delta else 0) := by
  unfold restoreEntry
  by_cases hk : k = e.acctKey
  · subst hk
    rw [valueOf_upsert_self]
    by_cases hck : ck = e.curKey
    · subst hck
      simp [amountValue_restoreRec_self]
    · simp [amountValue_restoreRec_ne parent bals e ck hck, hck]
  · rw [valueOf_upsert_ne _ _ _ _ _ hk]
    simp [hk]

theorem restoreEntry_congr (parent : BlockIdentifier)
    {b1 b2 : List (String × BalanceRecord)} (e : ChangeEntry) (h : BalEquiv b1 b2) :
    BalEquiv (restoreEntry parent b1 e) (restoreEntry parent b2 e) := by
  constructor
  · intro k ck
    rw [valueOf_restoreEntry, valueOf_restoreEntry, h.1 k ck]
  · intro k r hr
    by_cases hk : k = e.acctKey
    · subst hk
      unfold restoreEntry at hr ⊢
      rw [alookup_upsert_self] at hr
      obtain rfl : restoreRec parent b2 e = r := Option.some.inj hr
      exact ⟨restoreRec parent b1 e, alookup_upsert_self _ _ _,
        by rw [restoreRec_block, restoreRec_block]⟩
    · unfold restoreEntry at hr ⊢
      rw [alookup_upsert_ne _ _ _ _ hk] at hr
      obtain ⟨r', hr', hb'⟩ := h.2 k r hr
      exact ⟨r', by rw [alookup_upsert_ne _ _ _ _ hk]; exact hr', hb'⟩

theorem restoreAll_append (parent : BlockIdentifier) (bals : List (String × BalanceRecord))
    (E1 E2 : List ChangeEntry) :
    restoreAll parent bals (E1 ++ E2) = restoreAll parent (restoreAll parent bals E1) E2 := by
  induction E1 generalizing bals with
  | nil => rfl
  | cons e t ih => simp [restoreAll, ih]

theorem mkChange_acctKey (bals : List (String × BalanceRecord)) (a : AccountIdentifier)
    (c : Currency) (d : Int) (blk : BlockIdentifier) :
    (mkChange bals a c d blk).acctKey = getBalanceKey a := rfl

theorem mkChange_curKey (bals : List (String × BalanceRecord)) (a : AccountIdentifier)
    (c : Currency) (d : Int) (blk : BlockIdentifier) :
    (mkChange bals a c d blk).curKey = GetCurrencyKey c := rfl

theorem mkChange_delta (bals : List (String × BalanceRecord)) (a : AccountIdentifier)
    (c : Currency) (d : Int) (blk : BlockIdentifier) :
    (mkChange bals a c d blk).delta = d := rfl

theorem mkChange_prevBlock (bals : List (String × BalanceRecord)) (a : AccountIdentifier)
    (c : Currency) (d : Int) (blk : BlockIdentifier) :
    (mkChange bals a c d blk).prevBlock = (alookup bals (getBalanceKey a)).map (·.block) := rfl

theorem applyDeltaCore_balances (s : Store) (a : AccountIdentifier) (c : Currency) (d : Int)
    (blk : BlockIdentifier) :
    (applyDeltaCore s a c d blk).balances =
      upsert s.balances (getBalanceKey a) (updatedRecord s.balances a c d blk) := rfl

theorem applyDeltaCore_changes (s : Store) (a : AccountIdentifier) (c : Currency) (d : Int)
    (blk : BlockIdentifier) :
    (applyDeltaCore s a c d blk).changes = mkChange s.balances a c d blk :: s.changes := rfl

/-- Inverting the change entry written by `applyDeltaCore` restores the
pre-application balances (up to explicit zero records for accounts or
currencies the delta created). -/
theorem restoreEntry_applyDeltaCore (parent : BlockIdentifier) (s : Store)
    (a : AccountIdentifier) (c : Currency) (d : Int) (blk : BlockIdentifier) :
    BalEquiv
      (restoreEntry parent (applyDeltaCore s a c d blk).balances (mkChange s.balances a c d blk))
      s.balances := by
  constructor
  · intro k ck
    rw [valueOf_restoreEntry, mkChange_acctKey, mkChange_curKey, mkChange_delta,
      applyDeltaCore_balances]
    by_cases hk : k = getBalanceKey a
    · subst hk
      rw [valueOf_upsert_self]
      by_cases hck : ck = GetCurrencyKey c
      · subst hck
        rw [amountValue_updatedRecord_self]
        simp
      · rw [amountValue_updatedRecord_ne _ _ _ _ _ _ hck]
        simp [hck]
    · rw [valueOf_upsert_ne _ _ _ _ _ hk]
      simp [hk]
  · intro k r hr
    unfold restoreEntry
    rw [mkChange_acctKey]
    by_cases hk : k = getBalanceKey a
    · subst hk
      refine ⟨_, alookup_upsert_self _ _ _, ?_⟩
      rw [restoreRec_block, mkChange_prevBlock, hr]
      simp
    · rw [alookup_upsert_ne _ _ _ _ hk, applyDeltaCore_balances, alookup_upsert_ne _ _ _ _ hk]
      exact ⟨r, hr, rfl⟩

theorem applyDeltaCore_head (s : Store) (a : AccountIdentifier) (c : Currency) (d : Int)
    (blk : BlockIdentifier) : (applyDeltaCore s a c d blk).head = s.head := rfl

theorem applyDeltaCore_blocks (s : Store) (a : AccountIdentifier) (c : Currency) (d : Int)
    (blk : BlockIdentifier) : (applyDeltaCore s a c d blk).blocks = s.blocks := rfl

theorem applyDeltaCore_blockHashes (s : Store) (a : AccountIdentifier) (c : Currency) (d : Int)
    (blk : BlockIdentifier) : (applyDeltaCore s a c d blk).blockHashes = s.blockHashes := rfl

theorem applyDeltaCore_txHashes (s : Store) (a : AccountIdentifier) (c : Currency) (d : Int)
    (blk : BlockIdentifier) : (applyDeltaCore s a c d blk).txHashes = s.txHashes := rfl

/-- Success and result shape of `updateBalance`: it succeeds exactly when
the amount carries a currency and the resulting value is not negative, and
then performs `applyDeltaCore`. -/
theorem updateBalance_eq_ok {s : Store} {a : AccountIdentifier} {amt : Amount}
    {blk : BlockIdentifier} {s' : Store} :
    updateBalance s a amt blk = .ok s' ↔
      ∃ c, amt.currency = some c ∧
        0 ≤ valueOf s.balances (getBalanceKey a) (GetCurrencyKey c) + amt.value ∧
        s' = applyDeltaCore s a c amt.value blk := by
  unfold updateBalance
  cases hc : amt.currency with
  | none => simp
  | some c =>
    by_cases hneg : valueOf s.balances (getBalanceKey a) (GetCurrencyKey c) + amt.value < 0
    · simp only [if_pos hneg]
      constructor
      · intro h
        cases h
      · rintro ⟨c', hc', hnn, _⟩
        obtain rfl : c = c' := Option.some.inj hc'
        omega
    · simp only [if_neg hneg]
      constructor
      · intro h
        exact ⟨c, rfl, by omega, (Except.ok.inj h).symm⟩
      · rintro ⟨c', hc', hnn, rfl⟩
        obtain rfl : c = c' := Option.some.inj hc'
        rfl

theorem entryPair_mkChange (bals : List (String × BalanceRecord)) (a : AccountIdentifier)
    (c : Currency) (d : Int) (blk : BlockIdentifier) :
    entryPair (mkChange bals a c d blk) = { account := a, currency := c } := rfl

theorem changePairs_cons_some {ch : AccountIdentifier × Amount} {c : Currency}
    (h : ch.2.currency = some c) (rest : List (AccountIdentifier × Amount)) :
    changePairs (ch :: rest) =
      { account := ch.1, currency := c } :: changePairs rest := by
  simp [changePairs, h]

/-- The effect of applying a block's balance changes: the change log gains
one entry per applied delta (newest first), all keyed under the applied
block, whose recorded (account, currency) pairs are exactly the applied
pairs; inverting the new entries in log order restores the pre-application
balances; nothing else in the store changes. -/
theorem applyChanges_spec (blk : BlockIdentifier) :
    ∀ (chs : List (AccountIdentifier × Amount)) (s s' : Store),
      applyChanges s blk chs = .ok s' →
      ∃ E : List ChangeEntry,
        s'.changes = E ++ s.changes ∧
        (∀ e ∈ E, e.blockHash = blk.hash) ∧
        E.map entryPair = (changePairs chs).reverse ∧
        (∀ parent, BalEquiv (restoreAll parent s'.balances E) s.balances) ∧
        s'.head = s.head ∧ s'.blocks = s.blocks ∧
        s'.blockHashes = s.blockHashes ∧ s'.txHashes = s.txHashes := by
  intro chs
  induction chs with
  | nil =>
    intro s s' h
    obtain rfl : s = s' := by simpa [applyChanges] using h
    exact ⟨[], by simp, by simp, by simp [changePairs], fun _ => BalEquiv.refl _,
      rfl, rfl, rfl, rfl⟩
  | cons ch rest ih =>
    intro s s' h
    unfold applyChanges at h
    cases hu : updateBalance s ch.1 ch.2 blk with
    | error e => rw [hu] at h; cases h
    | ok s1 =>
      rw [hu] at h
      obtain ⟨c, hc, _, rfl⟩ := updateBalance_eq_ok.mp hu
      obtain ⟨E2, hch, hbh, hmap, hbe, hhd, hbl, hsh, htx⟩ := ih _ _ h
      refine ⟨E2 ++ [mkChange s.balances ch.1 c ch.2.value blk], ?_, ?_, ?_, ?_, ?_, ?_, ?_, ?_⟩
      · rw [hch, applyDeltaCore_changes]
        simp
      · intro e he
        rcases List.mem_append.mp he with h1 | h2
        · exact hbh e h1
        · obtain rfl : e = mkChange s.balances ch.1 c ch.2.value blk := by simpa using h2
          rfl
      · rw [List.map_append, hmap, changePairs_cons_some hc, List.reverse_cons]
        simp [entryPair_mkChange]
      · intro parent
        rw [restoreAll_append]
        have step1 : BalEquiv
            (restoreEntry parent (restoreAll parent s'.balances E2)
              (mkChange s.balances ch.1 c ch.2.value blk))
            (restoreEntry parent (applyDeltaCore s ch.1 c ch.2.value blk).balances
              (mkChange s.balances ch.1 c ch.2.value blk)) :=
          restoreEntry_congr parent _ (hbe parent)
        exact BalEquiv.trans step1 (restoreEntry_applyDeltaCore parent s ch.1 c ch.2.value blk)
      · rw [hhd, applyDeltaCore_head]
      · rw [hbl, applyDeltaCore_blocks]
      · rw [hsh, applyDeltaCore_blockHashes]
      · rw [htx, applyDeltaCore_txHashes]

theorem registerTxs_ok :
    ∀ (ts : List Transaction) (acc out : List String), registerTxs acc ts = .ok out →
      out = (ts.map (fun t => t.hash)).reverse ++ acc ∧
      (∀ t ∈ ts, t.hash ∉ acc) ∧ (ts.map (fun t => t.hash)).Nodup := by
  intro ts
  induction ts with
  | nil =>
    intro acc out h
    obtain rfl : acc = out := by simpa [registerTxs] using h
    simp
  | cons t rest ih =>
    intro acc out h
    unfold registerTxs at h
    by_cases hmem : t.hash ∈ acc
    · rw [if_pos hmem] at h
      cases h
    · rw [if_neg hmem] at h
      obtain ⟨hout, hdisj, hnd⟩ := ih (t.hash :: acc) out h
      refine ⟨by simp [hout], ?_, ?_⟩
      · intro t' ht'
        rcases List.mem_cons.mp ht' with h1 | h2
        · subst h1; exact hmem
        · intro hc
          exact hdisj t' h2 (List.mem_cons_of_mem _ hc)
      · refine List.nodup_cons.mpr ⟨?_, hnd⟩
        intro hc
        obtain ⟨t', ht', hh⟩ := List.mem_map.mp hc
        exact hdisj t' ht' (by simp [hh])

theorem registerTxs_error_of_mem :
    ∀ (ts : List Transaction) (acc : List String), (∃ t ∈ ts, t.hash ∈ acc) →
      ∃ h', registerTxs acc ts = .error (.duplicateTransactionHash h') := by
  intro ts
  induction ts with
  | nil =>
    intro acc h
    obtain ⟨t, ht, _⟩ := h
    cases ht
  | cons t rest ih =>
    intro acc h
    unfold registerTxs
    by_cases hmem : t.hash ∈ acc
    · exact ⟨t.hash, by rw [if_pos hmem]⟩
    · rw [if_neg hmem]
      obtain ⟨t', ht', hm'⟩ := h
      rcases List.mem_cons.mp ht' with h1 | h2
      · subst h1; exact absurd hm' hmem
      · exact ih (t.hash :: acc) ⟨t', h2, List.mem_cons_of_mem _ hm'⟩

theorem eraseString_eq_self {l : List String} {h : String} (hm : h ∉ l) :
    eraseString l h = l := by
  induction l with
  | nil => rfl
  | cons x t ih =>
    have hx : x ≠ h := fun hc => hm (by simp [hc])
    have ht : h ∉ t := fun hc => hm (List.mem_cons_of_mem _ hc)
    simp [eraseString, hx, ih ht]

theorem mem_eraseString {l : List String} {h x : String} :
    x ∈ eraseString l h ↔ x ∈ l ∧ x ≠ h := by
  induction l with
  | nil => simp [eraseString]
  | cons y t ih =>
    by_cases hy : y = h
    · subst hy
      rw [eraseString, if_pos rfl, ih]
      constructor
      · rintro ⟨hm, hne⟩
        exact ⟨List.mem_cons_of_mem _ hm, hne⟩
      · rintro ⟨hor, hne⟩
        rcases List.mem_cons.mp hor with h1 | h2
        · exact absurd h1 hne
        · exact ⟨h2, hne⟩
    · rw [eraseString, if_neg hy]
      constructor
      · intro hm
        rcases List.mem_cons.mp hm with h1 | h2
        · subst h1
          exact ⟨List.mem_cons_self _ _, hy⟩
        · obtain ⟨hm', hne⟩ := ih.mp h2
          exact ⟨List.mem_cons_of_mem _ hm', hne⟩
      · rintro ⟨hor, hne⟩
        rcases List.mem_cons.mp hor with h1 | h2
        · subst h1
          exact List.mem_cons_self _ _
        · exact List.mem_cons_of_mem _ (ih.mpr ⟨h2, hne⟩)

theorem removeStrings_append (l1 l2 rem : List String) :
    removeStrings (l1 ++ l2) rem = removeStrings l1 rem ++ removeStrings l2 rem := by
  induction l1 with
  | nil => rfl
  | cons x t ih =>
    by_cases hx : x ∈ rem <;> simp [removeStrings, hx, ih]

theorem removeStrings_eq_nil {l rem : List String} (h : ∀ x ∈ l, x ∈ rem) :
    removeStrings l rem = [] := by
  induction l with
  | nil => rfl
  | cons x t ih =>
    have hx : x ∈ rem := h x (by simp)
    simp [removeStrings, hx, ih (fun y hy => h y (List.mem_cons_of_mem _ hy))]

theorem removeStrings_eq_self {l rem : List String} (h : ∀ x ∈ l, x ∉ rem) :
    removeStrings l rem = l := by
  induction l with
  | nil => rfl
  | cons x t ih =>
    have hx : x ∉ rem := h x (by simp)
    simp [removeStrings, hx, ih (fun y hy => h y (List.mem_cons_of_mem _ hy))]

theorem eraseBlockHash_eq_self {l : List Block} {h : String}
    (hm : ∀ b ∈ l, b.blockIdentifier.hash ≠ h) : eraseBlockHash l h = l := by
  induction l with
  | nil => rfl
  | cons b t ih =>
    have hb : b.blockIdentifier.hash ≠ h := hm b (by simp)
    simp [eraseBlockHash, hb, ih (fun b' hb' => hm b' (List.mem_cons_of_mem _ hb'))]

theorem entriesOf_append (E C : List ChangeEntry) (h : String) :
    entriesOf (E ++ C) h = entriesOf E h ++ entriesOf C h := by
  induction E with
  | nil => rfl
  | cons e t ih =>
    by_cases he : e.blockHash = h <;> simp [entriesOf, he, ih]

theorem entriesOf_eq_self {E : List ChangeEntry} {h : String}
    (hall : ∀ e ∈ E, e.blockHash = h) : entriesOf E h = E := by
  induction E with
  | nil => rfl
  | cons e t ih =>
    have he : e.blockHash = h := hall e (by simp)
    simp [entriesOf, he, ih (fun e' he' => hall e' (List.mem_cons_of_mem _ he'))]

theorem entriesOf_eq_nil {E : List ChangeEntry} {h : String}
    (hall : ∀ e ∈ E, e.blockHash ≠ h) : entriesOf E h = [] := by
  induction E with
  | nil => rfl
  | cons e t ih =>
    have he : e.blockHash ≠ h := hall e (by simp)
    simp [entriesOf, he, ih (fun e' he' => hall e' (List.mem_cons_of_mem _ he'))]

theorem dropEntries_append (E C : List ChangeEntry) (h : String) :
    dropEntries (E ++ C) h = dropEntries E h ++ dropEntries C h := by
  induction E with
  | nil => rfl
  | cons e t ih =>
    by_cases he : e.blockHash = h <;> simp [dropEntries, he, ih]

theorem dropEntries_eq_nil {E : List ChangeEntry} {h : String}
    (hall : ∀ e ∈ E, e.blockHash = h) : dropEntries E h = [] := by
  induction E with
  | nil => rfl
  | cons e t ih =>
    have he : e.blockHash = h := hall e (by simp)
    simp [dropEntries, he, ih (fun e' he' => hall e' (List.mem_cons_of_mem _ he'))]

theorem dropEntries_eq_self {E : List ChangeEntry} {h : String}
    (hall : ∀ e ∈ E, e.blockHash ≠ h) : dropEntries E h = E := by
  induction E with
  | nil => rfl
  | cons e t ih =>
    have he : e.blockHash ≠ h := hall e (by simp)
    simp [dropEntries, he, ih (fun e' he' => hall e' (List.mem_cons_of_mem _ he'))]

theorem lookupBlock_cons_self {b : Block} (t : List Block) :
    lookupBlock (b :: t) b.blockIdentifier.hash = some b := by
  simp [lookupBlock]

/-- Result shape of a successful `storeBlock`. -/
theorem storeBlock_ok_elim {st : List OperationStatus} {s : Store} {b : Block} {s1 : Store}
    (h : storeBlock st s b = .ok s1) :
    b.blockIdentifier.hash ∉ s.blockHashes ∧
      ∃ txh sApp,
        registerTxs s.txHashes b.transactions = .ok txh ∧
        applyChanges
          { s with blockHashes := b.blockIdentifier.hash :: s.blockHashes, txHashes := txh }
          b.blockIdentifier (blockChanges st b) = .ok sApp ∧
        s1 = { sApp with blocks := b :: sApp.blocks } := by
  unfold storeBlock at h
  split at h
  · cases h
  next hmem =>
    split at h
    next e heq => cases h
    next txh heq =>
      split at h
      next e heq2 => cases h
      next sApp heq2 =>
        exact ⟨hmem, txh, sApp, heq, heq2, (Except.ok.inj h).symm⟩

/-- A `storeBlock` whose three phases succeed succeeds. -/
theorem storeBlock_ok_intro {st : List OperationStatus} {s : Store} {b : Block}
    {txh : List String} {sApp : Store}
    (hmem : b.blockIdentifier.hash ∉ s.blockHashes)
    (hreg : registerTxs s.txHashes b.transactions = .ok txh)
    (happ : applyChanges
        { s with blockHashes := b.blockIdentifier.hash :: s.blockHashes, txHashes := txh }
        b.blockIdentifier (blockChanges st b) = .ok sApp) :
    storeBlock st s b = .ok { sApp with blocks := b :: sApp.blocks } := by
  unfold storeBlock
  rw [if_neg hmem]
  split
  next e heq => rw [hreg] at heq; cases heq
  next txh' heq =>
    rw [hreg] at heq
    obtain rfl : txh = txh' := Except.ok.inj heq
    split
    next e heq2 => rw [happ] at heq2; cases heq2
    next sApp' heq2 =>
      rw [happ] at heq2
      obtain rfl : sApp = sApp' := Except.ok.inj heq2
      rfl

/-- Round trip: `storeBlock(B)` then `removeBlock(B.id)` restores the head
pointer, the uniqueness sentinels, the stored blocks and the change log
exactly, and restores the balances up to `BalEquiv` (explicit zero records
remain for accounts or currencies first touched by `B`).  The store is
assumed clean for `B`: no change entries under `B`'s hash (they would be
stale, since `B`'s hash is fresh) and every stored block covered by the
hash sentinels. -/
theorem store_remove_roundtrip {st : List OperationStatus} {s s1 : Store} {b : Block}
    (hstore : storeBlock st s b = .ok s1)
    (hclean : ∀ e ∈ s.changes, e.blockHash ≠ b.blockIdentifier.hash)
    (hcover : ∀ blk ∈ s.blocks, blk.blockIdentifier.hash ∈ s.blockHashes) :
    ∃ s2, removeBlock s1 b.blockIdentifier = .ok s2 ∧
      s2.head = s.head ∧ s2.blocks = s.blocks ∧ s2.blockHashes = s.blockHashes ∧
      s2.txHashes = s.txHashes ∧ s2.changes = s.changes ∧ BalEquiv s2.balances s.balances := by
  obtain ⟨hnot, txh, sApp, hreg, happ, rfl⟩ := storeBlock_ok_elim hstore
  obtain ⟨E, hch, hbh, _, hbe, hhd, hbl, hsh, htx⟩ :=
    applyChanges_spec b.blockIdentifier (blockChanges st b) _ sApp happ
  obtain ⟨htxh, hdisj, _⟩ := registerTxs_ok b.transactions s.txHashes txh hreg
  have hblocks1 : ({ sApp with blocks := b :: sApp.blocks } : Store).blocks = b :: s.blocks := by
    simp [hbl]
  have hfresh : ∀ blk ∈ s.blocks, blk.blockIdentifier.hash ≠ b.blockIdentifier.hash := by
    intro blk hblk hc
    exact hnot (hc ▸ hcover blk hblk)
  unfold removeBlock
  rw [hblocks1, lookupBlock_cons_self]
  refine ⟨_, rfl, ?_, ?_, ?_, ?_, ?_, ?_⟩
  · show ({ sApp with blocks := b :: sApp.blocks } : Store).head = s.head
    simpa using hhd
  · show eraseBlockHash (b :: s.blocks) b.blockIdentifier.hash = s.blocks
    simp only [eraseBlockHash, if_pos rfl]
    exact eraseBlockHash_eq_self hfresh
  · show eraseString ({ sApp with blocks := b :: sApp.blocks } : Store).blockHashes
        b.blockIdentifier.hash = s.blockHashes
    have : ({ sApp with blocks := b :: sApp.blocks } : Store).blockHashes =
        b.blockIdentifier.hash :: s.blockHashes := by simp [hsh]
    rw [this]
    simp only [eraseString, if_pos rfl]
    exact eraseString_eq_self hnot
  · show removeStrings ({ sApp with blocks := b :: sApp.blocks } : Store).txHashes
        (b.transactions.map (fun t => t.hash)) = s.txHashes
    have : ({ sApp with blocks := b :: sApp.blocks } : Store).txHashes =
        (b.transactions.map (fun t => t.hash)).reverse ++ s.txHashes := by simp [htx, htxh]
    rw [this, removeStrings_append]
    rw [removeStrings_eq_nil (fun x hx => List.mem_reverse.mp hx)]
    rw [removeStrings_eq_self ?_]
    · simp
    · intro x hx hc
      obtain ⟨t, ht, rfl⟩ := List.mem_map.mp hc
      exact hdisj t ht hx
  · show dropEntries ({ sApp with blocks := b :: sApp.blocks } : Store).changes
        b.blockIdentifier.hash = s.changes
    have : ({ sApp with blocks := b :: sApp.blocks } : Store).changes = E ++ s.changes := by
      simpa using hch
    rw [this, dropEntries_append, dropEntries_eq_nil hbh, dropEntries_eq_self hclean]
    simp
  · show BalEquiv (restoreAll b.parentBlockIdentifier
        ({ sApp with blocks := b :: sApp.blocks } : Store).balances
        (entriesOf ({ sApp with blocks := b :: sApp.blocks } : Store).changes
          b.blockIdentifier.hash)) s.balances
    have hch' : ({ sApp with blocks := b :: sApp.blocks } : Store).changes = E ++ s.changes := by
      simpa using hch
    rw [hch', entriesOf_append, entriesOf_eq_self hbh, entriesOf_eq_nil hclean, List.append_nil]
    exact hbe b.parentBlockIdentifier

theorem valueOf_applyDeltaCore (s : Store) (a : AccountIdentifier) (c : Currency) (d : Int)
    (blk : BlockIdentifier) (k ck : String) :
    valueOf (applyDeltaCore s a c d blk).balances k ck =
      valueOf s.balances k ck +
        (if k = getBalanceKey a ∧ ck = GetCurrencyKey c then d else 0) := by
  rw [applyDeltaCore_balances]
  by_cases hk : k = getBalanceKey a
  · subst hk
    rw [valueOf_upsert_self]
    by_cases hck : ck = GetCurrencyKey c
    · subst hck
      rw [amountValue_updatedRecord_self]
      simp
    · rw [amountValue_updatedRecord_ne _ _ _ _ _ _ hck]
      simp [hck]
  · rw [valueOf_upsert_ne _ _ _ _ _ hk]
    simp [hk]

theorem applyDeltaCore_congr {s t : Store} (h : BalEquiv s.balances t.balances)
    (a : AccountIdentifier) (c : Currency) (d : Int) (blk : BlockIdentifier) :
    BalEquiv (applyDeltaCore s a c d blk).balances (applyDeltaCore t a c d blk).balances := by
  constructor
  · intro k ck
    rw [valueOf_applyDeltaCore, valueOf_applyDeltaCore, h.1 k ck]
  · intro k r hr
    rw [applyDeltaCore_balances] at hr ⊢
    by_cases hk : k = getBalanceKey a
    · subst hk
      rw [alookup_upsert_self] at hr
      obtain rfl : updatedRecord t.balances a c d blk = r := Option.some.inj hr
      exact ⟨updatedRecord s.balances a c d blk, alookup_upsert_self _ _ _,
        by rw [updatedRecord_block, updatedRecord_block]⟩
    · rw [alookup_upsert_ne _ _ _ _ hk] at hr
      obtain ⟨r', hr', hb'⟩ := h.2 k r hr
      exact ⟨r', by rw [alookup_upsert_ne _ _ _ _ hk]; exact hr', hb'⟩

/-- `applyChanges` is a simulation up to `BalEquiv` of the balances: its
success and the per-step negative-balance checks depend only on the read
values. -/
theorem applyChanges_sim (blk : BlockIdentifier) :
    ∀ (chs : List (AccountIdentifier × Amount)) (t t' s : Store),
      BalEquiv s.balances t.balances → applyChanges t blk chs = .ok t' →
      ∃ s', applyChanges s blk chs = .ok s' := by
  intro chs
  induction chs with
  | nil => exact fun t t' s _ _ => ⟨s, rfl⟩
  | cons ch rest ih =>
    intro t t' s hbe h
    unfold applyChanges at h ⊢
    cases hu : updateBalance t ch.1 ch.2 blk with
    | error e => rw [hu] at h; cases h
    | ok t1 =>
      rw [hu] at h
      obtain ⟨c, hc, hnn, rfl⟩ := updateBalance_eq_ok.mp hu
      have hs : updateBalance s ch.1 ch.2 blk = .ok (applyDeltaCore s ch.1 c ch.2.value blk) :=
        updateBalance_eq_ok.mpr ⟨c, hc, by rw [hbe.1]; exact hnn, rfl⟩
      rw [hs]
      exact ih _ t' _ (applyDeltaCore_congr hbe ch.1 c ch.2.value blk) h

theorem lookupBlock_eq_none {l : List Block} {h : String}
    (hm : ∀ b ∈ l, b.blockIdentifier.hash ≠ h) : lookupBlock l h = none := by
  induction l with
  | nil => rfl
  | cons b t ih =>
    have hb : b.blockIdentifier.hash ≠ h := hm b (by simp)
    simp [lookupBlock, hb, ih (fun b' hb' => hm b' (List.mem_cons_of_mem _ hb'))]

theorem removeBlock_setHead (s : Store) (hid bid : BlockIdentifier) :
    removeBlock (setHead s hid) bid = (removeBlock s bid).map (fun t => setHead t hid) := by
  unfold removeBlock setHead
  cases lookupBlock s.blocks bid.hash <;> rfl

theorem mem_addUnique (l : List AccountAndCurrency) (x y : AccountAndCurrency) :
    y ∈ addUnique l x ↔ y ∈ l ∨ y = x := by
  unfold addUnique
  split
  next hx =>
    constructor
    · exact Or.inl
    · rintro (h | rfl)
      · exact h
      · exact hx
  next hx => simp

theorem nodup_addUnique (l : List AccountAndCurrency) (x : AccountAndCurrency)
    (h : l.Nodup) : (addUnique l x).Nodup := by
  unfold addUnique
  split
  next hx => exact h
  next hx => simp [List.nodup_append, h, hx]

theorem mem_foldl_addUnique (l : List AccountAndCurrency) :
    ∀ (acc : List AccountAndCurrency) (x : AccountAndCurrency),
      x ∈ l.foldl addUnique acc ↔ x ∈ acc ∨ x ∈ l := by
  induction l with
  | nil => simp
  | cons y t ih =>
    intro acc x
    rw [List.foldl_cons, ih, mem_addUnique]
    constructor
    · rintro ((h | rfl) | h)
      · exact Or.inl h
      · exact Or.inr (List.mem_cons_self _ _)
      · exact Or.inr (List.mem_cons_of_mem _ h)
    · rintro (h | h)
      · exact Or.inl (Or.inl h)
      · rcases List.mem_cons.mp h with rfl | h2
        · exact Or.inl (Or.inr rfl)
        · exact Or.inr h2

theorem mem_uniquePairs (l : List AccountAndCurrency) (x : AccountAndCurrency) :
    x ∈ uniquePairs l ↔ x ∈ l := by
  unfold uniquePairs
  rw [mem_foldl_addUnique]
  simp

theorem nodup_foldl_addUnique (l : List AccountAndCurrency) :
    ∀ acc : List AccountAndCurrency, acc.Nodup → (l.foldl addUnique acc).Nodup := by
  induction l with
  | nil => exact fun acc h => h
  | cons y t ih =>
    intro acc h
    rw [List.foldl_cons]
    exact ih _ (nodup_addUnique _ _ h)

theorem nodup_uniquePairs (l : List AccountAndCurrency) : (uniquePairs l).Nodup :=
  nodup_foldl_addUnique l [] List.nodup_nil

/-- A failing `ProcessBlock` commits nothing: its write transaction is
discarded, so the returned store is the input store, and it reports the
unchanged expected index with no changed accounts. -/
theorem processBlock_error_unchanged (st : List OperationStatus) (s : Store) (n : Int)
    (b : Block) (e : SyncError) (h : (processBlock st s n b).err = some e) :
    (processBlock st s n b).store = s ∧ (processBlock st s n b).newIndex = n ∧
      (processBlock st s n b).changed = [] := by
  revert h
  unfold processBlock forwardCase rollbackCase
  split
  · split
    · split
      · exact fun _ => ⟨rfl, rfl, rfl⟩
      · intro h
        cases h
    · split
      · exact fun _ => ⟨rfl, rfl, rfl⟩
      · split
        · split
          · exact fun _ => ⟨rfl, rfl, rfl⟩
          · intro h
            cases h
        · split
          · exact fun _ => ⟨rfl, rfl, rfl⟩
          · split
            · exact fun _ => ⟨rfl, rfl, rfl⟩
            · intro h
              cases h
  · exact fun _ => ⟨rfl, rfl, rfl⟩

/-- C6: supplying a candidate block whose index differs from the expected
index makes `ProcessBlock` fail with `OutOfOrderBlock`, whose message is
exactly `Got block m instead of n` (for m = 5, n = 4 the literal string
`Got block 5 instead of 4`), with empty changed accounts, the unchanged
expected index, and the store — hence the head pointer — unchanged. -/
theorem c6_out_of_order_block :
    (∀ (st : List OperationStatus) (s : Store) (n : Int) (b : Block),
      b.blockIdentifier.index ≠ n →
      processBlock st s n b =
        { changed := [], newIndex := n
          , err := some (.outOfOrderBlock b.blockIdentifier.index n), store := s }) ∧
    (∀ m n : Int, syncErrorMessage (.outOfOrderBlock m n) =
      "Got block " ++ toString m ++ " instead of " ++ toString n) ∧
    syncErrorMessage (.outOfOrderBlock 5 4) = "Got block 5 instead of 4" := by
  refine ⟨?_, fun m n => rfl, by decide⟩
  intro st s n b h
  unfold processBlock
  rw [if_neg h]

theorem c6_out_of_order_block_witness :
    processBlock testStatuses emptyStore 4 oooBlock =
      { changed := [], newIndex := 4, err := some (.outOfOrderBlock 5 4), store := emptyStore } :=
  c6_out_of_order_block.1 testStatuses emptyStore 4 oooBlock (by decide)

/-- C2: a balance update whose resulting value would be strictly negative —
the value of a missing record or currency reading as zero — fails with
`NegativeBalance`; a successful update keeps every stored balance
non-negative; and the abort is transaction-scoped: a `ProcessBlock` that
fails returns the store unchanged (so the head is unchanged, no block is
stored and no balance record is created or modified), with the unchanged
index and no changed accounts. -/
theorem c2_negative_balance_invariant :
    (∀ (s : Store) (a : AccountIdentifier) (amt : Amount) (blk : BlockIdentifier) (c : Currency),
      amt.currency = some c →
      valueOf s.balances (getBalanceKey a) (GetCurrencyKey c) + amt.value < 0 →
      updateBalance s a amt blk = .error .negativeBalance) ∧
    (∀ (s s' : Store) (a : AccountIdentifier) (amt : Amount) (blk : BlockIdentifier),
      (∀ k ck, 0 ≤ valueOf s.balances k ck) → updateBalance s a amt blk = .ok s' →
      ∀ k ck, 0 ≤ valueOf s'.balances k ck) ∧
    (∀ (st : List OperationStatus) (s : Store) (n : Int) (b : Block) (e : SyncError),
      (processBlock st s n b).err = some e →
      (processBlock st s n b).store = s ∧ (processBlock st s n b).newIndex = n ∧
        (processBlock st s n b).changed = []) := by
  refine ⟨?_, ?_, ?_⟩
  · intro s a amt blk c hc hneg
    unfold updateBalance
    split
    next heq => rw [hc] at heq; cases heq
    next c' heq =>
      rw [hc] at heq
      obtain rfl : c = c' := Option.some.inj heq
      rw [if_pos hneg]
  · intro s s' a amt blk hpos hok k ck
    obtain ⟨c, hc, hnn, rfl⟩ := updateBalance_eq_ok.mp hok
    rw [valueOf_applyDeltaCore]
    split
    next hcond =>
      obtain ⟨hk, hck⟩ := hcond
      subst hk
      subst hck
      exact hnn
    next => simpa using hpos k ck
  · exact processBlock_error_unchanged

theorem c2_negative_balance_invariant_witness :
    updateBalance emptyStore acctTwo { value := -100, currency := some blahCurrency }
        (mkBlockId "2" 2) = .error .negativeBalance ∧
    ((processBlock testStatuses storeAfterGen 1 negBlock).store = storeAfterGen ∧
      (processBlock testStatuses storeAfterGen 1 negBlock).newIndex = 1 ∧
      (processBlock testStatuses storeAfterGen 1 negBlock).changed = []) :=
  ⟨c2_negative_balance_invariant.1 emptyStore acctTwo _ (mkBlockId "2" 2) blahCurrency rfl
      (by decide),
   c2_negative_balance_invariant.2.2 testStatuses storeAfterGen 1 negBlock
      (.storage .negativeBalance) (by decide)⟩

/-- C7: snapshot isolation of balance updates.  Inside the write
transaction that performed an update, `getBalance` returns the updated
value citing the update's block; discarding the transaction leaves the
committed store, so a fresh read transaction — like a concurrent read
transaction opened before any commit — returns the pre-update value; only
committing publishes the update. -/
theorem c7_txn_isolation :
    ∀ (db s' : Store) (a : AccountIdentifier) (amt : Amount) (blk : BlockIdentifier)
      (c : Currency), amt.currency = some c →
      updateBalance db a amt blk = .ok s' →
      (∃ r, alookup s'.balances (getBalanceKey a) = some r ∧ r.block = blk ∧
        alookup r.amounts (GetCurrencyKey c) = some
          { value := valueOf db.balances (getBalanceKey a) (GetCurrencyKey c) + amt.value
            , currency := some c }) ∧
      discardTxn db s' = db ∧
      getBalance (beginReadTxn db) a = getBalance db a ∧
      getBalance (commitTxn db s') a = getBalance s' a := by
  intro db s' a amt blk c hc hok
  obtain ⟨c', hc', hnn, rfl⟩ := updateBalance_eq_ok.mp hok
  obtain rfl : c = c' := by rw [hc] at hc'; exact Option.some.inj hc'
  refine ⟨⟨updatedRecord db.balances a c amt.value blk, ?_, updatedRecord_block _ _ _ _ _, ?_⟩,
    rfl, rfl, rfl⟩
  · rw [applyDeltaCore_balances]
    exact alookup_upsert_self _ _ _
  · unfold updatedRecord
    cases h : alookup db.balances (getBalanceKey a) with
    | none => simp [alookup]
    | some r => simp [alookup_upsert_self]

theorem c7_txn_isolation_witness :
    (∃ r, alookup c7Pending.balances (getBalanceKey acctOne) = some r ∧
      r.block = mkBlockId "b" 1 ∧
      alookup r.amounts (GetCurrencyKey blahCurrency) = some
        { value := valueOf emptyStore.balances (getBalanceKey acctOne)
            (GetCurrencyKey blahCurrency) + 100, currency := some blahCurrency }) ∧
    discardTxn emptyStore c7Pending = emptyStore ∧
    getBalance (beginReadTxn emptyStore) acctOne = getBalance emptyStore acctOne ∧
    getBalance (commitTxn emptyStore c7Pending) acctOne = getBalance c7Pending acctOne :=
  c7_txn_isolation emptyStore c7Pending acctOne
    { value := 100, currency := some blahCurrency } (mkBlockId "b" 1) blahCurrency rfl (by decide)

/-- C4: `storeBlock` fails with `DuplicateBlockHash` when the candidate's
block hash is already present, and with `DuplicateTransactionHash` when any
of its transaction hashes is already present anywhere in the stored chain —
the sentinel set is global, so a hash stored by a block with a different
block hash also collides; in both cases nothing is committed — a
`ProcessBlock` that fails returns the store unchanged. -/
theorem c4_duplicate_hashes :
    (∀ (st : List OperationStatus) (s : Store) (b : Block),
      b.blockIdentifier.hash ∈ s.blockHashes →
      storeBlock st s b = .error (.duplicateBlockHash b.blockIdentifier.hash)) ∧
    (∀ (st : List OperationStatus) (s : Store) (b : Block),
      b.blockIdentifier.hash ∉ s.blockHashes →
      (∃ t ∈ b.transactions, t.hash ∈ s.txHashes) →
      ∃ h, storeBlock st s b = .error (.duplicateTransactionHash h)) ∧
    (∀ (st : List OperationStatus) (s : Store) (n : Int) (b : Block) (e : SyncError),
      (processBlock st s n b).err = some e → (processBlock st s n b).store = s) := by
  refine ⟨?_, ?_, ?_⟩
  · intro st s b h
    unfold storeBlock
    rw [if_pos h]
  · intro st s b hnb hex
    obtain ⟨h', hreg⟩ := registerTxs_error_of_mem b.transactions s.txHashes hex
    refine ⟨h', ?_⟩
    unfold storeBlock
    rw [if_neg hnb]
    split
    next e heq =>
      rw [hreg] at heq
      obtain rfl : StorageError.duplicateTransactionHash h' = e := Except.error.inj heq
      rfl
    next txh heq =>
      rw [hreg] at heq
      cases heq
  · exact fun st s n b e h => (processBlock_error_unchanged st s n b e h).1

theorem c4_duplicate_hashes_witness :
    storeBlock testStatuses dupStore dupBlock = .error (.duplicateBlockHash "blah") ∧
    (∃ h, storeBlock testStatuses dupStore dupBlock2 =
      .error (.duplicateTransactionHash h)) :=
  ⟨c4_duplicate_hashes.1 testStatuses dupStore dupBlock (by decide),
   c4_duplicate_hashes.2.1 testStatuses dupStore dupBlock2 (by decide)
     ⟨{ hash := "blahTx", operations := [dupOp] }, by decide, by decide⟩⟩

theorem sorted_keyLT_of_sorted_keyLE {l : List (String × MetaValue)}
    (hs : l.Sorted keyLE) (hnd : (l.map Prod.fst).Nodup) : l.Sorted keyLT := by
  have hne : l.Pairwise (fun a b => a.1 ≠ b.1) := List.pairwise_map.mp hnd
  exact (hs.and hne).imp (fun h => h)

/-- Metadata maps that are permutations of each other with distinct keys
serialize identically: the serializer sorts by key. -/
theorem serializeMetadata_perm {m1 m2 : Metadata} (hp : m1.Perm m2)
    (hnd : (m1.map Prod.fst).Nodup) : serializeMetadata m1 = serializeMetadata m2 := by
  have hperm : (m1.insertionSort keyLE).Perm (m2.insertionSort keyLE) :=
    ((m1.perm_insertionSort keyLE).trans hp).trans (m2.perm_insertionSort keyLE).symm
  have hnd1 : ((m1.insertionSort keyLE).map Prod.fst).Nodup :=
    (((m1.perm_insertionSort keyLE).map Prod.fst).nodup_iff).mpr hnd
  have hnd2 : ((m2.insertionSort keyLE).map Prod.fst).Nodup :=
    ((hperm.map Prod.fst).nodup_iff).mp hnd1
  have heq : m1.insertionSort keyLE = m2.insertionSort keyLE :=
    List.eq_of_perm_of_sorted hperm
      (sorted_keyLT_of_sorted_keyLE (List.sorted_insertionSort keyLE m1) hnd1)
      (sorted_keyLT_of_sorted_keyLE (List.sorted_insertionSort keyLE m2) hnd2)
  unfold serializeMetadata
  rw [heq]

/-- C8: the balance key is deterministic under metadata-map enumeration
order — two account identifiers differing only in the enumeration order of
their sub-account metadata keys get the same key, since metadata keys are
serialized sorted; the two orderings of the test's metadata both canonicalize
to `balance:hello:stake:map[awesome:neat cool:1]`; and equal account
identifiers always address the same balance record. -/
theorem c8_balance_key_deterministic :
    (∀ (addr nm : String) (m1 m2 : Metadata), m1.Perm m2 → (m1.map Prod.fst).Nodup →
      getBalanceKey ⟨addr, some ⟨nm, some m1⟩⟩ = getBalanceKey ⟨addr, some ⟨nm, some m2⟩⟩) ∧
    getBalanceKey metaAccountA = "balance:hello:stake:map[awesome:neat cool:1]" ∧
    getBalanceKey metaAccountB = "balance:hello:stake:map[awesome:neat cool:1]" ∧
    (∀ a1 a2 : AccountIdentifier, a1 = a2 → getBalanceKey a1 = getBalanceKey a2) := by
  refine ⟨?_, by rfl, by rfl, fun a1 a2 h => by rw [h]⟩
  intro addr nm m1 m2 hp hnd
  show "balance:" ++ (addr ++ ":" ++ nm ++ ":" ++ serializeMetadata m1) =
    "balance:" ++ (addr ++ ":" ++ nm ++ ":" ++ serializeMetadata m2)
  rw [serializeMetadata_perm hp hnd]

theorem c8_balance_key_deterministic_witness :
    getBalanceKey metaAccountA = getBalanceKey metaAccountB :=
  c8_balance_key_deterministic.1 "hello" "stake"
    [("cool", .num 1), ("awesome", .str "neat")]
    [("awesome", .str "neat"), ("cool", .num 1)] (by decide) (by decide)

theorem filterMap_filter_eq {α β : Type} (p : α → Bool) (f : α → Option β)
    (h : ∀ x, p x = false → f x = none) :
    ∀ l : List α, (l.filter p).filterMap f = l.filterMap f := by
  intro l
  induction l with
  | nil => rfl
  | cons x t ih =>
    cases hp : p x with
    | true => simp [List.filter_cons, hp, List.filterMap_cons, ih]
    | false => simp [List.filter_cons, hp, List.filterMap_cons, ih, h x hp]

/-- Filtering a block to its successful operations does not change its
balance-affecting content: unsuccessful operations contribute nothing. -/
theorem blockChanges_filterSuccessfulOps (st : List OperationStatus) (b : Block) :
    blockChanges st (filterSuccessfulOps st b) = blockChanges st b := by
  unfold blockChanges filterSuccessfulOps
  simp only [List.map_map]
  congr 1
  have : ∀ t : Transaction,
      ((t.operations.filter (fun op => successfulStatus st op.status)).filterMap
        (fun op => match op.account, op.amount with
          | some a, some amt =>
            if successfulStatus st op.status then some (a, amt) else none
          | _, _ => none)) =
      (t.operations.filterMap (fun op => match op.account, op.amount with
          | some a, some amt =>
            if successfulStatus st op.status then some (a, amt) else none
          | _, _ => none)) := by
    intro t
    apply filterMap_filter_eq
    intro op hp
    cases hacct : op.account with
    | none => rfl
    | some a =>
      cases hamt : op.amount with
      | none => rfl
      | some amt => simp [hp]
  exact List.map_congr_left (fun t _ => this t)

theorem registerTxs_map_hash {g : Transaction → Transaction}
    (hg : ∀ t, (g t).hash = t.hash) :
    ∀ (ts : List Transaction) (acc : List String),
      registerTxs acc (ts.map g) = registerTxs acc ts := by
  intro ts
  induction ts with
  | nil => exact fun _ => rfl
  | cons t rest ih =>
    intro acc
    simp only [List.map_cons, registerTxs, hg t]
    by_cases hm : t.hash ∈ acc
    · rw [if_pos hm, if_pos hm]
    · rw [if_neg hm, if_neg hm, ih]

/-- Blocks with the same identifier, transaction hashes and
balance-affecting content store the same balances and change log (they may
differ in the persisted block value itself). -/
theorem storeBlock_congr {st : List OperationStatus} {s : Store} {b1 b2 : Block}
    (hid : b1.blockIdentifier = b2.blockIdentifier)
    (hreg : ∀ acc, registerTxs acc b1.transactions = registerTxs acc b2.transactions)
    (hch : blockChanges st b1 = blockChanges st b2) :
    balancesAndChanges (storeBlock st s b1) = balancesAndChanges (storeBlock st s b2) := by
  unfold storeBlock
  rw [hid, hreg s.txHashes, hch]
  by_cases hmem : b2.blockIdentifier.hash ∈ s.blockHashes
  · rw [if_pos hmem, if_pos hmem]
  · rw [if_neg hmem, if_neg hmem]
    cases hr : registerTxs s.txHashes b2.transactions with
    | error e => simp only [hr]
    | ok txh =>
      simp only [hr]
      generalize applyChanges
        { s with blockHashes := b2.blockIdentifier.hash :: s.blockHashes, txHashes := txh }
        b2.blockIdentifier (blockChanges st b2) = res
      cases res with
      | error e => rfl
      | ok sApp => rfl

/-- C3: only operations whose status maps to successful modify balances or
appear in `changedAccounts` — a block stores the same balances and change
log as its successful-operations-only filtering — and concretely, after a
block containing one Success +100 operation and one Failure +100 operation
to the same account, that account's balance is exactly 100 (citing that
block) and the account appears exactly once in the emitted pairs. -/
theorem c3_successful_operations_only :
    (∀ (st : List OperationStatus) (s : Store) (b : Block),
      blockChanges st (filterSuccessfulOps st b) = blockChanges st b ∧
      balancesAndChanges (storeBlock st s (filterSuccessfulOps st b)) =
        balancesAndChanges (storeBlock st s b)) ∧
    outNR2.changed = [{ account := acctOne, currency := blahCurrency }] ∧
    getBalance outNR2.store acctOne =
      .ok ([(GetCurrencyKey blahCurrency, { value := 100, currency := some blahCurrency })],
        mkBlockId "2" 2) ∧
    outNR2.err = none := by
  refine ⟨?_, by decide, by decide, by decide⟩
  intro st s b
  refine ⟨blockChanges_filterSuccessfulOps st b, ?_⟩
  exact storeBlock_congr
    (show (filterSuccessfulOps st b).blockIdentifier = b.blockIdentifier from rfl)
    (fun acc => @registerTxs_map_hash
      (fun t => { t with operations := t.operations.filter (fun op => successfulStatus st op.status) })
      (fun t => rfl) b.transactions acc)
    (blockChanges_filterSuccessfulOps st b)

/-- C5 as stated is too strong: storing a block that first touches an
account and then removing it does not return the store to a state where the
account has no record — the rewind keeps an explicit zero-valued record
(citing the removed block's parent), as `TestReorgProcessBlock` also
expects after a rollback.  Concretely, after `storeBlock` of a block
crediting a fresh account and `removeBlock` of it, `getBalance` succeeds
with a zero amount where before the store it failed with
`AccountNotFound`. -/
theorem c5_roundtrip_counterexample :
    storeBlock testStatuses emptyStore plusBlock = .ok plusStored ∧
    removeBlock plusStored plusBlock.blockIdentifier = .ok plusRemoved ∧
    getBalance emptyStore acctOne = .error (.accountNotFound acctOne) ∧
    getBalance plusRemoved acctOne =
      .ok ([(GetCurrencyKey blahCurrency, { value := 0, currency := some blahCurrency })],
        plusBlock.parentBlockIdentifier) ∧
    plusRemoved ≠ emptyStore := by
  refine ⟨by decide, by decide, by decide, by decide, by decide⟩

/-- C5 amended: `storeBlock(B)` then `removeBlock(B.id)` restores the head
pointer, every balance value (a missing record or currency reading as
zero), and the cited block of every record that existed before the store;
the stored blocks, the uniqueness sentinels and the change log are restored
exactly.  Accounts or currencies first touched by `B` retain an explicit
zero-valued record instead of disappearing.  The store is assumed to carry
no stale change entries under `B`'s hash and to have its stored blocks
covered by the hash sentinels (both hold in every state the syncer
produces). -/
theorem c5_store_remove_roundtrip {st : List OperationStatus} {s s1 : Store} {b : Block}
    (hstore : storeBlock st s b = .ok s1)
    (hclean : ∀ e ∈ s.changes, e.blockHash ≠ b.blockIdentifier.hash)
    (hcover : ∀ blk ∈ s.blocks, blk.blockIdentifier.hash ∈ s.blockHashes) :
    ∃ s2, removeBlock s1 b.blockIdentifier = .ok s2 ∧
      s2.head = s.head ∧
      (∀ k ck, valueOf s2.balances k ck = valueOf s.balances k ck) ∧
      (∀ k r, alookup s.balances k = some r →
        ∃ r', alookup s2.balances k = some r' ∧ r'.block = r.block) ∧
      s2.blocks = s.blocks ∧ s2.blockHashes = s.blockHashes ∧
      s2.txHashes = s.txHashes ∧ s2.changes = s.changes := by
  obtain ⟨s2, hrm, hhd, hbl, hbh, htx, hch, hbe⟩ := store_remove_roundtrip hstore hclean hcover
  exact ⟨s2, hrm, hhd, hbe.1, hbe.2, hbl, hbh, htx, hch⟩

theorem c5_store_remove_roundtrip_witness :
    ∃ s2, removeBlock sbAfterOne blockOne.blockIdentifier = .ok s2 ∧
      s2.head = storeAfterGen.head ∧
      (∀ k ck, valueOf s2.balances k ck = valueOf storeAfterGen.balances k ck) ∧
      (∀ k r, alookup storeAfterGen.balances k = some r →
        ∃ r', alookup s2.balances k = some r' ∧ r'.block = r.block) ∧
      s2.blocks = storeAfterGen.blocks ∧ s2.blockHashes = storeAfterGen.blockHashes ∧
      s2.txHashes = storeAfterGen.txHashes ∧ s2.changes = storeAfterGen.changes :=
  @c5_store_remove_roundtrip testStatuses storeAfterGen sbAfterOne blockOne
    (by decide) (by decide) (by decide)

/-- C10: removing a committed block releases the uniqueness constraints it
contributed — the block-hash and transaction-hash sentinels are deleted
with the block — so re-storing a block with the same block hash and the
same transaction hashes succeeds rather than failing with
`DuplicateBlockHash` or `DuplicateTransactionHash`. -/
theorem c10_remove_releases_uniqueness {st : List OperationStatus} {s s1 : Store} {b : Block}
    (hstore : storeBlock st s b = .ok s1)
    (hclean : ∀ e ∈ s.changes, e.blockHash ≠ b.blockIdentifier.hash)
    (hcover : ∀ blk ∈ s.blocks, blk.blockIdentifier.hash ∈ s.blockHashes) :
    ∃ s2, removeBlock s1 b.blockIdentifier = .ok s2 ∧
      (storeBlock st s2 b).isOk = true := by
  obtain ⟨s2, hrm, hhd, hbl, hbh, htx, hch, hbe⟩ := store_remove_roundtrip hstore hclean hcover
  refine ⟨s2, hrm, ?_⟩
  obtain ⟨hnot, txh, sApp, hreg, happ, rfl⟩ := storeBlock_ok_elim hstore
  have hmem2 : b.blockIdentifier.hash ∉ s2.blockHashes := by rw [hbh]; exact hnot
  have hreg2 : registerTxs s2.txHashes b.transactions = .ok txh := by rw [htx]; exact hreg
  have hbal : BalEquiv
      ({ s2 with
          blockHashes := b.blockIdentifier.hash :: s2.blockHashes,
          txHashes := txh } : Store).balances
      ({ s with
          blockHashes := b.blockIdentifier.hash :: s.blockHashes,
          txHashes := txh } : Store).balances := hbe
  obtain ⟨sApp2, happ2⟩ :=
    applyChanges_sim b.blockIdentifier (blockChanges st b) _ sApp _ hbal happ
  rw [storeBlock_ok_intro hmem2 hreg2 happ2]
  rfl

theorem c10_remove_releases_uniqueness_witness :
    ∃ s2, removeBlock sbAfterOne blockOne.blockIdentifier = .ok s2 ∧
      (storeBlock testStatuses s2 blockOne).isOk = true :=
  @c10_remove_releases_uniqueness testStatuses storeAfterGen sbAfterOne blockOne
    (by decide) (by decide) (by decide)

theorem processBlock_forward_eq {st : List OperationStatus} {s : Store} {n : Int} {b : Block}
    (hidx : b.blockIdentifier.index = n)
    (hhead : n = 0 ∨ s.head = some b.parentBlockIdentifier) :
    processBlock st s n b = forwardCase st s n b := by
  unfold processBlock
  rw [if_pos hidx]
  by_cases h0 : n = 0
  · rw [if_pos h0]
  · rw [if_neg h0]
    rcases hhead with h | hh
    · exact absurd h h0
    · simp only [hh]
      simp

theorem forwardCase_ok {st : List OperationStatus} {s s1 : Store} {n : Int} {b : Block}
    (hstore : storeBlock st s b = .ok s1) :
    forwardCase st s n b =
      { changed := forwardChanged st b, newIndex := n + 1, err := none
        , store := setHead s1 b.blockIdentifier } := by
  unfold forwardCase
  simp only [hstore]

theorem processBlock_rollback_eq {st : List OperationStatus} {s : Store} {n : Int} {b : Block}
    {hd : BlockIdentifier} (hidx : b.blockIdentifier.index = n) (hn : n ≠ 0)
    (hhead : s.head = some hd) (hpar : b.parentBlockIdentifier ≠ hd) :
    processBlock st s n b = rollbackCase s n hd := by
  unfold processBlock
  rw [if_pos hidx, if_neg hn]
  simp only [hhead]
  rw [if_neg hpar]

theorem rollbackCase_eq {s s1 : Store} {n : Int} {hd : BlockIdentifier} {hb : Block}
    (hlook : lookupBlock s.blocks hd.hash = some hb)
    (hrm : removeBlock s hd = .ok s1) :
    rollbackCase s n hd =
      { changed := uniquePairs ((entriesOf s.changes hd.hash).map entryPair)
        , newIndex := n - 1, err := none
        , store := setHead s1 hb.parentBlockIdentifier } := by
  unfold rollbackCase
  simp only [hlook, hrm]
  rfl

/-- C1: on a parent mismatch at the expected index, `ProcessBlock` performs
a one-block rollback.  Starting from a store `s0` and the state reached by
forward-processing a head block `H` over it, a candidate whose index is the
expected one but whose parent differs from `H` makes `ProcessBlock`
succeed with: the head set to `H`'s parent, `H`'s block record removed (a
subsequent `getBlock` of `H` fails with `BlockNotFound`), the stored
blocks — in particular, without the candidate — back to `s0`'s, every
balance value rewound to its value before `H` was applied with every
pre-existing record citing its former block again, `changedAccounts`
exactly the (account, currency) pairs touched by `H` (each once), and
`newIndex` the expected index minus one. -/
theorem c1_reorg_rollback {st : List OperationStatus} {s0 sb : Store} {H b : Block} {n : Int}
    (hstore : storeBlock st s0 H = .ok sb)
    (hclean : ∀ e ∈ s0.changes, e.blockHash ≠ H.blockIdentifier.hash)
    (hcover : ∀ blk ∈ s0.blocks, blk.blockIdentifier.hash ∈ s0.blockHashes)
    (hHidx : H.blockIdentifier.index = n)
    (hhead0 : n = 0 ∨ s0.head = some H.parentBlockIdentifier)
    (hidx : b.blockIdentifier.index = n + 1)
    (hn1 : n + 1 ≠ 0)
    (hpar : b.parentBlockIdentifier ≠ H.blockIdentifier) :
    processBlock st s0 n H =
      { changed := forwardChanged st H, newIndex := n + 1, err := none
        , store := setHead sb H.blockIdentifier } ∧
    (processBlock st (setHead sb H.blockIdentifier) (n + 1) b).err = none ∧
    (processBlock st (setHead sb H.blockIdentifier) (n + 1) b).newIndex = n ∧
    (processBlock st (setHead sb H.blockIdentifier) (n + 1) b).changed.Nodup ∧
    (∀ p, p ∈ (processBlock st (setHead sb H.blockIdentifier) (n + 1) b).changed ↔
      p ∈ forwardChanged st H) ∧
    (processBlock st (setHead sb H.blockIdentifier) (n + 1) b).store.head =
      some H.parentBlockIdentifier ∧
    getBlock (processBlock st (setHead sb H.blockIdentifier) (n + 1) b).store
      H.blockIdentifier = .error (.blockNotFound H.blockIdentifier) ∧
    (processBlock st (setHead sb H.blockIdentifier) (n + 1) b).store.blocks = s0.blocks ∧
    (∀ k ck,
      valueOf (processBlock st (setHead sb H.blockIdentifier) (n + 1) b).store.balances k ck =
        valueOf s0.balances k ck) ∧
    (∀ k r, alookup s0.balances k = some r →
      ∃ r', alookup (processBlock st (setHead sb H.blockIdentifier) (n + 1) b).store.balances k
        = some r' ∧ r'.block = r.block) := by
  obtain ⟨hnot, txh, sApp, hreg, happ, hsb⟩ := storeBlock_ok_elim hstore
  obtain ⟨E, hch, hbh, hmap, _, _, hblA, _, _⟩ :=
    applyChanges_spec H.blockIdentifier (blockChanges st H) _ sApp happ
  obtain ⟨s2, hrm, hhd2, hbl2, _, _, _, hbe2⟩ := store_remove_roundtrip hstore hclean hcover
  have hsbBlocks : sb.blocks = H :: s0.blocks := by
    rw [hsb]
    simpa using congrArg (H :: ·) hblA
  have hsbChanges : sb.changes = E ++ s0.changes := by
    rw [hsb]
    simpa using hch
  have hfresh : ∀ blk ∈ s0.blocks, blk.blockIdentifier.hash ≠ H.blockIdentifier.hash := by
    intro blk hblk hc
    exact hnot (hc ▸ hcover blk hblk)
  have hfwd : processBlock st s0 n H =
      { changed := forwardChanged st H, newIndex := n + 1, err := none
        , store := setHead sb H.blockIdentifier } := by
    rw [processBlock_forward_eq hHidx hhead0, forwardCase_ok hstore]
  have hlook : lookupBlock (setHead sb H.blockIdentifier).blocks H.blockIdentifier.hash =
      some H := by
    show lookupBlock sb.blocks H.blockIdentifier.hash = some H
    rw [hsbBlocks]
    exact lookupBlock_cons_self _
  have hrm' : removeBlock (setHead sb H.blockIdentifier) H.blockIdentifier =
      .ok (setHead s2 H.blockIdentifier) := by
    rw [removeBlock_setHead, hrm]
    rfl
  have hentries : entriesOf (setHead sb H.blockIdentifier).changes H.blockIdentifier.hash = E := by
    show entriesOf sb.changes H.blockIdentifier.hash = E
    rw [hsbChanges, entriesOf_append, entriesOf_eq_self hbh, entriesOf_eq_nil hclean,
      List.append_nil]
  have hroll : processBlock st (setHead sb H.blockIdentifier) (n + 1) b =
      { changed := uniquePairs (E.map entryPair), newIndex := n + 1 - 1, err := none
        , store := setHead (setHead s2 H.blockIdentifier) H.parentBlockIdentifier } := by
    rw [processBlock_rollback_eq hidx hn1 rfl hpar, rollbackCase_eq hlook hrm', hentries]
  refine ⟨hfwd, ?_, ?_, ?_, ?_, ?_, ?_, ?_, ?_, ?_⟩
  · rw [hroll]
  · rw [hroll]
    show n + 1 - 1 = n
    omega
  · rw [hroll]
    exact nodup_uniquePairs _
  · intro p
    rw [hroll]
    show p ∈ uniquePairs (E.map entryPair) ↔ p ∈ forwardChanged st H
    rw [mem_uniquePairs, hmap, List.mem_reverse]
    exact (mem_uniquePairs _ p).symm
  · rw [hroll]
    rfl
  · rw [hroll]
    show getBlock (setHead (setHead s2 H.blockIdentifier) H.parentBlockIdentifier)
      H.blockIdentifier = .error (.blockNotFound H.blockIdentifier)
    unfold getBlock
    have : lookupBlock s2.blocks H.blockIdentifier.hash = none := by
      rw [hbl2]
      exact lookupBlock_eq_none hfresh
    simp only [setHead]
    rw [this]
  · rw [hroll]
    exact hbl2
  · intro k ck
    rw [hroll]
    exact hbe2.1 k ck
  · intro k r hr
    rw [hroll]
    exact hbe2.2 k r hr

theorem c1_reorg_rollback_witness :
    processBlock testStatuses storeAfterGen 1 blockOne =
      { changed := forwardChanged testStatuses blockOne, newIndex := 2, err := none
        , store := setHead sbAfterOne blockOne.blockIdentifier } ∧
    (processBlock testStatuses (setHead sbAfterOne blockOne.blockIdentifier) 2
      orphanTrigger).err = none ∧
    (processBlock testStatuses (setHead sbAfterOne blockOne.blockIdentifier) 2
      orphanTrigger).newIndex = 1 ∧
    (processBlock testStatuses (setHead sbAfterOne blockOne.blockIdentifier) 2
      orphanTrigger).changed.Nodup ∧
    (∀ p, p ∈ (processBlock testStatuses (setHead sbAfterOne blockOne.blockIdentifier) 2
        orphanTrigger).changed ↔ p ∈ forwardChanged testStatuses blockOne) ∧
    (processBlock testStatuses (setHead sbAfterOne blockOne.blockIdentifier) 2
      orphanTrigger).store.head = some blockOne.parentBlockIdentifier ∧
    getBlock (processBlock testStatuses (setHead sbAfterOne blockOne.blockIdentifier) 2
      orphanTrigger).store blockOne.blockIdentifier =
      .error (.blockNotFound blockOne.blockIdentifier) ∧
    (processBlock testStatuses (setHead sbAfterOne blockOne.blockIdentifier) 2
      orphanTrigger).store.blocks = storeAfterGen.blocks ∧
    (∀ k ck, valueOf (processBlock testStatuses (setHead sbAfterOne blockOne.blockIdentifier) 2
      orphanTrigger).store.balances k ck = valueOf storeAfterGen.balances k ck) ∧
    (∀ k r, alookup storeAfterGen.balances k = some r →
      ∃ r', alookup (processBlock testStatuses (setHead sbAfterOne blockOne.blockIdentifier) 2
        orphanTrigger).store.balances k = some r' ∧ r'.block = r.block) :=
  @c1_reorg_rollback testStatuses storeAfterGen sbAfterOne blockOne orphanTrigger 1
    (by decide) (by decide) (by decide) (by decide) (Or.inr (by decide)) (by decide)
    (by decide) (by decide)

theorem forwardCase_error {st : List OperationStatus} {s : Store} {n : Int} {b : Block}
    {e : StorageError} (h : storeBlock st s b = .error e) :
    forwardCase st s n b =
      { changed := [], newIndex := n, err := some (.storage e), store := s } := by
  unfold forwardCase
  simp only [h]

theorem chainLinked_head_index :
    ∀ (t : List Block) (b : Block), chainLinked (b :: t) →
      b.blockIdentifier.index = (t.length : Int) := by
  intro t
  induction t with
  | nil =>
    intro b h
    simpa using h
  | cons p t2 ih =>
    intro b h
    obtain ⟨_, hi, hrest⟩ := h
    rw [hi, ih p hrest]
    simp

/-- C9 as stated fails at the genesis corner: a `ProcessBlock` sequence may
roll back the genesis block itself, after which the head pointer names the
just-removed genesis block, which `getBlock` no longer finds.  Two calls
from an empty store exhibit it: store a self-parented genesis, then supply
an index-1 candidate with a mismatching parent. -/
theorem c9_head_invariant_counterexample :
    Reachable testStatuses ghostStore 0 ∧
    ghostStore.head = some genBlock.blockIdentifier ∧
    getBlock ghostStore genBlock.blockIdentifier =
      .error (.blockNotFound genBlock.blockIdentifier) ∧
    ghostStore.blocks = [] := by
  refine ⟨?_, by decide, by decide, by decide⟩
  have h1 : Reachable testStatuses storeAfterGen 1 :=
    Reachable.step emptyStore 0 genBlock Reachable.init
  exact Reachable.step storeAfterGen 1 badGenChild h1

/-- The store invariant is preserved by every `ProcessBlock` call that does
not roll back the genesis block. -/
theorem storeInv_preserved {st : List OperationStatus} {s : Store} {n : Int} {b : Block}
    (hinv : StoreInv s n) (hguard : genesisRollbackStep s n b = false) :
    StoreInv (processBlock st s n b).store (processBlock st s n b).newIndex := by
  obtain ⟨hemp, hcons, hchain, hnd, hcov⟩ := hinv
  by_cases hidx : b.blockIdentifier.index = n
  case neg =>
    have heq : processBlock st s n b =
        { changed := [], newIndex := n
          , err := some (.outOfOrderBlock b.blockIdentifier.index n), store := s } := by
      unfold processBlock
      rw [if_neg hidx]
    rw [heq]
    exact ⟨hemp, hcons, hchain, hnd, hcov⟩
  case pos =>
    by_cases h0 : n = 0
    · subst h0
      have hblocks : s.blocks = [] := by
        cases hb : s.blocks with
        | nil => rfl
        | cons bb t =>
          exfalso
          obtain ⟨_, hn⟩ := hcons bb t hb
          have hbbidx : bb.blockIdentifier.index = (t.length : Int) :=
            chainLinked_head_index t bb (hb ▸ hchain)
          omega
      rw [processBlock_forward_eq hidx (Or.inl rfl)]
      cases hsb : storeBlock st s b with
      | error e =>
        rw [forwardCase_error hsb]
        exact ⟨hemp, hcons, hchain, hnd, hcov⟩
      | ok s1 =>
        rw [forwardCase_ok hsb]
        obtain ⟨hnot, txh, sApp, hreg, happ, rfl⟩ := storeBlock_ok_elim hsb
        obtain ⟨_, _, _, _, _, _, hblA, hshA, _⟩ :=
          applyChanges_spec b.blockIdentifier (blockChanges st b) _ sApp happ
        have hblocks1 : ({ sApp with blocks := b :: sApp.blocks } : Store).blocks = [b] := by
          simp [hblA, hblocks]
        refine ⟨?_, ?_, ?_, ?_, ?_⟩
        · intro h
          rw [show (setHead { sApp with blocks := b :: sApp.blocks } b.blockIdentifier).blocks =
            [b] from hblocks1] at h
          cases h
        · intro b' t' h
          rw [show (setHead { sApp with blocks := b :: sApp.blocks } b.blockIdentifier).blocks =
            [b] from hblocks1] at h
          obtain rfl : b = b' := (List.cons.inj h).1
          exact ⟨rfl, by show (0 : Int) + 1 = b.blockIdentifier.index + 1; omega⟩
        · show chainLinked (b :: sApp.blocks)
          rw [show sApp.blocks = s.blocks from hblA, hblocks]
          exact hidx
        · show ((b :: sApp.blocks).map (fun x => x.blockIdentifier.hash)).Nodup
          rw [show sApp.blocks = s.blocks from hblA, hblocks]
          simp
        · intro blk hm
          show blk.blockIdentifier.hash ∈ sApp.blockHashes
          rw [show sApp.blockHashes = b.blockIdentifier.hash :: s.blockHashes from hshA]
          rcases List.mem_cons.mp (by
            rw [show (setHead { sApp with blocks := b :: sApp.blocks }
              b.blockIdentifier).blocks = [b] from hblocks1] at hm
            exact hm) with rfl | hfalse
          · exact List.mem_cons_self _ _
          · cases hfalse
    · cases hhd : s.head with
      | none =>
        have heq : processBlock st s n b =
            { changed := [], newIndex := n
              , err := some (.storage .headBlockNotFound), store := s } := by
          unfold processBlock
          rw [if_pos hidx, if_neg h0]
          simp only [hhd]
        rw [heq]
        exact ⟨hemp, hcons, hchain, hnd, hcov⟩
      | some hd =>
        cases hb : s.blocks with
        | nil =>
          exfalso
          exact h0 (hemp hb).2
        | cons hb0 t0 =>
          obtain ⟨hhdeq, hneq⟩ := hcons hb0 t0 hb
          rw [hhd] at hhdeq
          obtain rfl : hd = hb0.blockIdentifier := Option.some.inj hhdeq
          by_cases hparent : b.parentBlockIdentifier = hb0.blockIdentifier
          · rw [processBlock_forward_eq hidx (Or.inr (by rw [hhd, hparent]))]
            cases hsb : storeBlock st s b with
            | error e =>
              rw [forwardCase_error hsb]
              exact ⟨hemp, hcons, hchain, hnd, hcov⟩
            | ok s1 =>
              rw [forwardCase_ok hsb]
              obtain ⟨hnot, txh, sApp, hreg, happ, rfl⟩ := storeBlock_ok_elim hsb
              obtain ⟨_, _, _, _, _, _, hblA, hshA, _⟩ :=
                applyChanges_spec b.blockIdentifier (blockChanges st b) _ sApp happ
              have hblocks1 : (setHead { sApp with blocks := b :: sApp.blocks }
                  b.blockIdentifier).blocks = b :: s.blocks := by
                simp [setHead, hblA]
              refine ⟨?_, ?_, ?_, ?_, ?_⟩
              · intro h
                rw [hblocks1] at h
                cases h
              · intro b' t' h
                rw [hblocks1] at h
                obtain rfl : b = b' := (List.cons.inj h).1
                exact ⟨rfl, by show n + 1 = b.blockIdentifier.index + 1; omega⟩
              · show chainLinked (setHead { sApp with blocks := b :: sApp.blocks }
                  b.blockIdentifier).blocks
                rw [hblocks1, hb]
                exact ⟨hparent, by omega, hb ▸ hchain⟩
              · show ((setHead { sApp with blocks := b :: sApp.blocks }
                  b.blockIdentifier).blocks.map (fun x => x.blockIdentifier.hash)).Nodup
                rw [hblocks1]
                refine List.nodup_cons.mpr ⟨?_, hnd⟩
                intro hc
                obtain ⟨blk, hblk, hh⟩ := List.mem_map.mp hc
                have hh' : blk.blockIdentifier.hash = b.blockIdentifier.hash := hh
                exact hnot (hh' ▸ hcov blk hblk)
              · intro blk hm
                rw [hblocks1] at hm
                show blk.blockIdentifier.hash ∈ sApp.blockHashes
                rw [show sApp.blockHashes = b.blockIdentifier.hash :: s.blockHashes from hshA]
                rcases List.mem_cons.mp hm with rfl | hmem
                · exact List.mem_cons_self _ _
                · exact List.mem_cons_of_mem _ (hcov blk hmem)
          · have hgidx : hb0.blockIdentifier.index ≠ 0 := by
              intro hc
              unfold genesisRollbackStep at hguard
              rw [hhd] at hguard
              simp [hidx, h0, hparent, hc] at hguard
            cases ht0 : t0 with
            | nil =>
              exfalso
              apply hgidx
              have hone : chainLinked [hb0] := by
                rw [hb, ht0] at hchain
                exact hchain
              exact hone
            | cons p t1 =>
              have hchain' : chainLinked (hb0 :: p :: t1) := by
                rw [hb, ht0] at hchain
                exact hchain
              obtain ⟨hplink, hpidx, hprest⟩ := hchain'
              have hnd' : ((hb0 :: p :: t1).map
                  (fun x => x.blockIdentifier.hash)).Nodup := by
                rw [hb, ht0] at hnd
                exact hnd
              rw [List.map_cons] at hnd'
              have hnotin : hb0.blockIdentifier.hash ∉
                  (p :: t1).map (fun x => x.blockIdentifier.hash) :=
                (List.nodup_cons.mp hnd').1
              have hfresh : ∀ blk ∈ p :: t1,
                  blk.blockIdentifier.hash ≠ hb0.blockIdentifier.hash := by
                intro blk hblk hc
                have hm2 : blk.blockIdentifier.hash ∈
                    (p :: t1).map (fun x => x.blockIdentifier.hash) :=
                  List.mem_map_of_mem _ hblk
                exact hnotin (hc ▸ hm2)
              have hlook : lookupBlock s.blocks hb0.blockIdentifier.hash = some hb0 := by
                rw [hb, ht0]
                exact lookupBlock_cons_self _
              have hrm : removeBlock s hb0.blockIdentifier = .ok
                  { head := s.head
                    , blocks := eraseBlockHash s.blocks hb0.blockIdentifier.hash
                    , blockHashes := eraseString s.blockHashes hb0.blockIdentifier.hash
                    , txHashes := removeStrings s.txHashes
                        (hb0.transactions.map (fun t => t.hash))
                    , balances := restoreAll hb0.parentBlockIdentifier s.balances
                        (entriesOf s.changes hb0.blockIdentifier.hash)
                    , changes := dropEntries s.changes hb0.blockIdentifier.hash } := by
                unfold removeBlock
                rw [hlook]
              rw [processBlock_rollback_eq hidx h0 hhd hparent, rollbackCase_eq hlook hrm]
              have herased : eraseBlockHash s.blocks hb0.blockIdentifier.hash = p :: t1 := by
                rw [hb, ht0]
                simp only [eraseBlockHash, if_pos rfl]
                exact eraseBlockHash_eq_self hfresh
              refine ⟨?_, ?_, ?_, ?_, ?_⟩
              · intro h
                have h' : eraseBlockHash s.blocks hb0.blockIdentifier.hash = [] := h
                rw [herased] at h'
                cases h'
              · intro b' t' h
                have h' : eraseBlockHash s.blocks hb0.blockIdentifier.hash = b' :: t' := h
                rw [herased] at h'
                obtain rfl : p = b' := (List.cons.inj h').1
                constructor
                · show some hb0.parentBlockIdentifier = some p.blockIdentifier
                  rw [hplink]
                · show n - 1 = p.blockIdentifier.index + 1
                  omega
              · show chainLinked (eraseBlockHash s.blocks hb0.blockIdentifier.hash)
                rw [herased]
                exact hprest
              · show ((eraseBlockHash s.blocks hb0.blockIdentifier.hash).map
                  (fun x => x.blockIdentifier.hash)).Nodup
                rw [herased]
                have hnd' : ((hb0 :: p :: t1).map
                    (fun x => x.blockIdentifier.hash)).Nodup := by
                  rw [hb, ht0] at hnd
                  exact hnd
                exact (List.nodup_cons.mp hnd').2
              · intro blk hm
                have hm' : blk ∈ eraseBlockHash s.blocks hb0.blockIdentifier.hash := hm
                rw [herased] at hm'
                show blk.blockIdentifier.hash ∈
                  eraseString s.blockHashes hb0.blockIdentifier.hash
                rw [mem_eraseString]
                refine ⟨hcov blk (by rw [hb, ht0]; exact List.mem_cons_of_mem _ hm'), ?_⟩
                exact hfresh blk hm'

theorem safeReachable_storeInv {st : List OperationStatus} {s : Store} {n : Int}
    (h : SafeReachable st s n) : StoreInv s n := by
  induction h with
  | init =>
    exact ⟨fun _ => ⟨rfl, rfl⟩, fun b t h => by simp [emptyStore] at h, trivial,
      List.nodup_nil, fun b h => absurd h (List.not_mem_nil b)⟩
  | step s1 n1 b1 hr hg ih => exact storeInv_preserved ih hg

/-- C9 amended: in every state reachable without ever rolling back the
genesis block, a present head pointer names a block that `getBlock` finds,
and on a store whose head was never set `getHead` fails with
`HeadBlockNotFound` (the store holds at most one head pointer by its
single-key schema). -/
theorem c9_head_invariant_amended {st : List OperationStatus} {s : Store} {n : Int}
    (h : SafeReachable st s n) :
    (∀ hd, s.head = some hd → (getBlock s hd).isOk = true) ∧
    (s.head = none → getHead s = .error .headBlockNotFound) := by
  obtain ⟨hemp, hcons, _, _, _⟩ := safeReachable_storeInv h
  constructor
  · intro hd hhd
    cases hb : s.blocks with
    | nil =>
      obtain ⟨h1, _⟩ := hemp hb
      rw [hhd] at h1
      cases h1
    | cons b0 t0 =>
      obtain ⟨hh, _⟩ := hcons b0 t0 hb
      rw [hhd] at hh
      obtain rfl : hd = b0.blockIdentifier := Option.some.inj hh
      unfold getBlock
      rw [hb]
      simp only [lookupBlock_cons_self]
      rfl
  · intro hh
    unfold getHead
    simp only [hh]

theorem c9_head_invariant_amended_witness :
    (∀ hd, storeAfterGen.head = some hd →
      (getBlock storeAfterGen hd).isOk = true) ∧
    (storeAfterGen.head = none →
      getHead storeAfterGen = .error .headBlockNotFound) :=
  c9_head_invariant_amended
    (SafeReachable.step emptyStore 0 genBlock SafeReachable.init (by decide))

end RV
